import Mathlib

/-!
Verification of the movine match-and-plan engine.

The planner (`plan_builder.rs`) and the default plan executor
(`adaptor.rs::run_migration_plan`) are translated from the source.
`migration.rs`, `match_maker.rs` and `errors.rs` are not part of the
source tree we were given, so the `Migration` record, the `Matching`
sum type with its helpers, `find_matches`, and the error enumeration
are modelled from the specification (sections 3, 4.4 and 7).
-/

namespace Movine

/-- Modelled from the spec (section 7): the error taxonomy of `errors.rs`,
which is missing from the sources.  Only the planning-relevant kinds are
needed here. -/
inductive Error where
  | DirtyMigrations
  | DivergentMigration
  | UnrollbackableMigration
  | Unknown
deriving DecidableEq, Repr

/-- The migration record.  The four fields are exactly those used by the
source (`plan_builder.rs` tests and `movine-macro` construct
`Migration { name, up_sql, down_sql, hash }`); `migration.rs` itself is
missing, the field types follow the spec (section 3). -/
structure Migration where
  name : String
  up_sql : Option String
  down_sql : Option String
  hash : Option String
deriving DecidableEq, Repr

instance : Inhabited Migration := ⟨⟨"", none, none, none⟩⟩

/-- Modelled from the spec (section 3, invariant 3): `Migration::is_reversable`
(called by `adaptor.rs::run_migration_plan`) is true iff the down SQL is
present.  `migration.rs` is missing from the sources. -/
def Migration.is_reversable (m : Migration) : Bool :=
  m.down_sql.isSome

/-- Modelled from the spec (section 3): the `Matching` sum type of the
missing `match_maker.rs`.  `Applied` and `Divergent` carry the applied
record, `Pending` the local record, `Variant` both. -/
inductive Matching where
  | Applied (a : Migration)
  | Variant (l : Migration) (a : Migration)
  | Divergent (a : Migration)
  | Pending (l : Migration)
deriving DecidableEq, Repr

namespace Matching

/-- Modelled from the spec (section 4.4): a down SQL exists somewhere;
for `Variant`/`Applied` the applied side is preferred, with the local
side as fallback for `Variant` (section 9, recommended rule). -/
def is_reversable : Matching → Bool
  | .Applied a => a.down_sql.isSome
  | .Variant l a => a.down_sql.isSome || l.down_sql.isSome
  | .Divergent a => a.down_sql.isSome
  | .Pending l => l.down_sql.isSome

/-- Modelled from the spec (section 4.4): the record whose down SQL is to
be executed; the applied record for `Variant`/`Applied`/`Divergent`
(falling back to the local record for a `Variant` whose applied side has
no down SQL, section 9), the local record for `Pending`. -/
def get_best_down_migration : Matching → Migration
  | .Applied a => a
  | .Variant l a => if a.down_sql.isSome then a else l
  | .Divergent a => a
  | .Pending l => l

/-- Modelled from the spec (section 4.4): the local record when one
exists, none for `Divergent`.  An `Applied` value stores only the
applied record (which carries the shared name), so that record is
returned. -/
def get_local_migration : Matching → Option Migration
  | .Applied a => some a
  | .Variant l _ => some l
  | .Divergent _ => none
  | .Pending l => some l

/-- The name of the match, taken from its principal record. -/
def mname : Matching → String
  | .Applied a => a.name
  | .Variant l _ => l.name
  | .Divergent a => a.name
  | .Pending l => l.name

def isPendingB : Matching → Bool
  | .Pending _ => true
  | _ => false

def isDivergentB : Matching → Bool
  | .Divergent _ => true
  | _ => false

def isVariantB : Matching → Bool
  | .Variant _ _ => true
  | _ => false

def isAppliedB : Matching → Bool
  | .Applied _ => true
  | _ => false

/-- Name well-formedness: the two records of a `Variant` share a name
(they were paired by name). -/
def WfNames : Matching → Prop
  | .Variant l a => l.name = a.name
  | _ => True

end Matching

/-- The lexicographic order on names, computed on the character lists (the
same order as the one on `String`, see `nameLt_iff`). -/
def nameLt (a b : String) : Bool := decide (a.toList < b.toList)

/-- The reflexive closure of `nameLt`, computed on the character lists. -/
def nameLe (a b : String) : Bool := decide (a.toList ≤ b.toList)

/-- Modelled from the spec (section 4.4): hashes are compatible when they
agree or at least one is absent. -/
def hashes_compatible (l a : Migration) : Bool :=
  l.hash.isNone || a.hash.isNone || decide (l.hash = a.hash)

/-- Modelled from the spec (section 4.4): `match_maker::find_matches` is
missing from the sources.  On the name-sorted inputs the engine assumes
(section 9, sorted inputs), walking the union of names by a merge
realises the spec's algorithm. -/
def find_matches : List Migration → List Migration → List Matching
  | [], [] => []
  | [], a :: as => .Divergent a :: find_matches [] as
  | l :: ls, [] => .Pending l :: find_matches ls []
  | l :: ls, a :: as =>
    if l.name = a.name then
      (if hashes_compatible l a then .Applied a else .Variant l a) :: find_matches ls as
    else if nameLt l.name a.name then
      .Pending l :: find_matches ls (a :: as)
    else
      .Divergent a :: find_matches (l :: ls) as
termination_by l a => l.length + a.length
decreasing_by all_goals simp [List.length] <;> omega

/-- Insertion of a match into a name-sorted list of matches. -/
def insertMatch (m : Matching) : List Matching → List Matching
  | [] => [m]
  | h :: t => if nameLe m.mname h.mname then m :: h :: t else h :: insertMatch m t

/-- Modelled from the spec (section 4.4): `PlanBuilder::build` sorts the
match list (`matches.sort()` in the source); the derived ordering of the missing
`match_maker.rs` sorts by the migration name, realised here by insertion
sort. -/
def sortMatches : List Matching → List Matching
  | [] => []
  | m :: ms => insertMatch m (sortMatches ms)

inductive Dir where
  | Up
  | Down
deriving DecidableEq, Repr

/-- `Step(pub Dir, pub &Migration)`. -/
structure Step where
  dir : Dir
  migration : Migration
deriving DecidableEq, Repr

def stepName (s : Step) : String := s.migration.name

/-- `PlanBuilder` (stage one): optional inputs plus the flags. -/
structure PlanBuilder where
  local_migrations : Option (List Migration)
  db_migrations : Option (List Migration)
  count : Option Nat
  strict : Bool
  ignore_divergent : Bool
  ignore_unreversable : Bool

/-- `PlanBuilder2`: the computed match list plus the flags. -/
structure PlanBuilder2 where
  matches' : List Matching
  count : Option Nat
  strict : Bool
  ignore_divergent : Bool
  ignore_unreversable : Bool

/-- `PlanBuilder::build`: fails with `Unknown` unless both migration lists
were supplied, else computes and sorts the matches. -/
def PlanBuilder.build (b : PlanBuilder) : Except Error PlanBuilder2 :=
  match b.local_migrations, b.db_migrations with
  | some l, some d =>
    .ok ⟨sortMatches (find_matches l d), b.count, b.strict, b.ignore_divergent, b.ignore_unreversable⟩
  | _, _ => .error .Unknown

namespace PlanBuilder2

def any_divergent (b : PlanBuilder2) : Bool :=
  b.matches'.any Matching.isDivergentB

def any_variant (b : PlanBuilder2) : Bool :=
  b.matches'.any Matching.isVariantB

def safe_to_migrate (b : PlanBuilder2) : Bool :=
  !b.any_divergent && !b.any_variant

end PlanBuilder2

/-- The loop of `PlanBuilder2::up`: walk the matches accumulating the plan,
the pending-found flag and the dirty flag. -/
def upLoop (c : Option Nat) : List Matching → List Step → Bool → Bool → List Step × Bool
  | [], plan, _, dirty => (plan, dirty)
  | m :: ms, plan, pf, dirty =>
    match m with
    | .Pending x =>
      match c with
      | some n =>
        if n == plan.length then upLoop c ms plan true dirty
        else upLoop c ms (plan ++ [⟨Dir.Up, x⟩]) true dirty
      | none => upLoop c ms (plan ++ [⟨Dir.Up, x⟩]) true dirty
    | _ => upLoop c ms plan pf (if pf then true else dirty)

/-- `PlanBuilder2::up`. -/
def PlanBuilder2.up (b : PlanBuilder2) : Except Error (List Step) :=
  let r := upLoop b.count b.matches' [] false false
  if b.strict && r.2 then .error .DirtyMigrations else .ok r.1

/-- The stop condition shared by `down` and `redo`: with a count, stop when
the plan (resp. rollback plan) has that length; without one, stop at
length one. -/
def downCheck (c : Option Nat) (plan : List Step) : Bool :=
  match c with
  | some n => n == plan.length
  | none => plan.length == 1

/-- The loop of `PlanBuilder2::down` over the reversed match list.  An
ignored divergent `continue`s past the stop check; every other branch
falls through to it. -/
def downLoop (c : Option Nat) (igD igU : Bool) : List Matching → List Step → Except Error (List Step)
  | [], plan => .ok plan
  | m :: ms, plan =>
    match m with
    | .Divergent x =>
      if igD then downLoop c igD igU ms plan
      else
        let plan' := plan ++ [⟨Dir.Down, x⟩]
        if downCheck c plan' then .ok plan' else downLoop c igD igU ms plan'
    | .Applied _ | .Variant _ _ =>
      if m.is_reversable then
        let plan' := plan ++ [⟨Dir.Down, m.get_best_down_migration⟩]
        if downCheck c plan' then .ok plan' else downLoop c igD igU ms plan'
      else if !igU then .error .UnrollbackableMigration
      else if downCheck c plan then .ok plan else downLoop c igD igU ms plan
    | .Pending _ =>
      if downCheck c plan then .ok plan else downLoop c igD igU ms plan

/-- `PlanBuilder2::down`: walk the matches in reverse order. -/
def PlanBuilder2.down (b : PlanBuilder2) : Except Error (List Step) :=
  downLoop b.count b.ignore_divergent b.ignore_unreversable b.matches'.reverse []

/-- The loop of `PlanBuilder2::fix`: accumulate the reversed rollback plan
and the rollup plan, tracking whether a bad migration was found. -/
def fixLoop : List Matching → Bool → List Step → List Step → Except Error (List Step × List Step)
  | [], _, rbr, ru => .ok (rbr, ru)
  | m :: ms, bad, rbr, ru =>
    match m with
    | .Divergent x =>
      if m.is_reversable then fixLoop ms true (rbr ++ [⟨Dir.Down, x⟩]) ru
      else .error .UnrollbackableMigration
    | .Variant _ _ =>
      if m.is_reversable then
        fixLoop ms true (rbr ++ [⟨Dir.Down, m.get_best_down_migration⟩])
          (ru ++ [⟨Dir.Up, m.get_local_migration.get!⟩])
      else .error .UnrollbackableMigration
    | .Applied x =>
      if bad then
        if m.is_reversable then fixLoop ms bad (rbr ++ [⟨Dir.Down, x⟩]) (ru ++ [⟨Dir.Up, x⟩])
        else .error .UnrollbackableMigration
      else fixLoop ms bad rbr ru
    | .Pending x => fixLoop ms true rbr (ru ++ [⟨Dir.Up, x⟩])

/-- `PlanBuilder2::fix`: reverse the rollback accumulator, then append the
rollup plan. -/
def PlanBuilder2.fix (b : PlanBuilder2) : Except Error (List Step) :=
  match fixLoop b.matches' false [] [] with
  | .error e => .error e
  | .ok (rbr, ru) => .ok (rbr.reverse ++ ru)

/-- The loop of `PlanBuilder2::redo` over the reversed match list, with the
rollback plan and the reversed rollup plan; the stop condition is measured
against the rollback plan. -/
def redoLoop (c : Option Nat) (igD igU : Bool) :
    List Matching → List Step → List Step → Except Error (List Step × List Step)
  | [], rb, ru => .ok (rb, ru)
  | m :: ms, rb, ru =>
    match m with
    | .Divergent _ =>
      if igD then redoLoop c igD igU ms rb ru
      else .error .DivergentMigration
    | .Applied _ | .Variant _ _ =>
      if m.is_reversable then
        let rb' := rb ++ [⟨Dir.Down, m.get_best_down_migration⟩]
        let ru' := ru ++ [⟨Dir.Up, m.get_local_migration.get!⟩]
        if downCheck c rb' then .ok (rb', ru') else redoLoop c igD igU ms rb' ru'
      else if !igU then .error .UnrollbackableMigration
      else if downCheck c rb then .ok (rb, ru) else redoLoop c igD igU ms rb ru
    | .Pending _ =>
      if downCheck c rb then .ok (rb, ru) else redoLoop c igD igU ms rb ru

/-- `PlanBuilder2::redo`: rollback plan followed by the reversed rollup
accumulator. -/
def PlanBuilder2.redo (b : PlanBuilder2) : Except Error (List Step) :=
  match redoLoop b.count b.ignore_divergent b.ignore_unreversable b.matches'.reverse [] [] with
  | .error e => .error e
  | .ok (rb, ru) => .ok (rb ++ ru.reverse)

/-- `PlanBuilder2::status`. -/
def PlanBuilder2.status (b : PlanBuilder2) : Except Error (List Matching) :=
  .ok b.matches'

/-- `DbAdaptor::run_migration_plan` (default method, `adaptor.rs`): walk the
plan in order; an `Up` step invokes `run_up_migration`, a `Down` step
invokes `run_down_migration` only when the migration is reversible and is
otherwise silently skipped; an adaptor error aborts immediately.  The
display call is pure output and is not modelled. -/
def run_migration_plan {σ : Type} (run_up run_down : σ → Migration → Except Error σ) (s : σ) :
    List Step → Except Error σ
  | [] => .ok s
  | st :: rest =>
    match st.dir with
    | .Up =>
      match run_up s st.migration with
      | .ok s' => run_migration_plan run_up run_down s' rest
      | .error e => .error e
    | .Down =>
      if st.migration.is_reversable then
        match run_down s st.migration with
        | .ok s' => run_migration_plan run_up run_down s' rest
        | .error e => .error e
      else run_migration_plan run_up run_down s rest

/-- A recorded adaptor invocation, for observing what the executor calls. -/
inductive DbCall where
  | up (m : Migration)
  | down (m : Migration)
deriving DecidableEq, Repr

/-- The adaptor that records its up calls and never fails. -/
def traceRunUp (t : List DbCall) (m : Migration) : Except Error (List DbCall) :=
  .ok (t ++ [.up m])

/-- The adaptor that records its down calls and never fails. -/
def traceRunDown (t : List DbCall) (m : Migration) : Except Error (List DbCall) :=
  .ok (t ++ [.down m])

/-- The adaptor calls a plan gives rise to: one up call per `Up` step, one
down call per reversible `Down` step, in plan order. -/
def stepCalls (p : List Step) : List DbCall :=
  p.filterMap fun s =>
    match s.dir with
    | .Up => some (.up s.migration)
    | .Down => if s.migration.is_reversable then some (.down s.migration) else none

/-- The pending matches of a match list, in order. -/
def pendings (ms : List Matching) : List Migration :=
  ms.filterMap fun m =>
    match m with
    | .Pending x => some x
    | _ => none

/-- Truncation by an optional count. -/
def applyCount {α : Type} : Option Nat → List α → List α
  | none, l => l
  | some n, l => l.take n

/-- The plan `up` produces: one `Up` step per pending match, truncated by
the count. -/
def upPlanOf (b : PlanBuilder2) : List Step :=
  (applyCount b.count (pendings b.matches')).map fun x => ⟨Dir.Up, x⟩

/-- A match on which the `down` walk appends a step: a divergent not being
ignored, or a reversible applied or variant match. -/
def qualifies (igD : Bool) (m : Matching) : Bool :=
  match m with
  | .Divergent _ => !igD
  | .Applied _ | .Variant _ _ => m.is_reversable
  | .Pending _ => false

/-- The down step a qualifying match contributes. -/
def qualifyStep (igD : Bool) (m : Matching) : Option Step :=
  if qualifies igD m then some ⟨Dir.Down, m.get_best_down_migration⟩ else none

/-- Whether the first match the `down` walk actually processes (skipping
ignored divergents) appends a step. -/
def downAppendsFirst (igD : Bool) : List Matching → Bool
  | [] => false
  | m :: ms =>
    match m with
    | .Divergent _ => if igD then downAppendsFirst igD ms else true
    | .Applied _ | .Variant _ _ => m.is_reversable
    | .Pending _ => false

/-- Instrumented copy of the `down` loop recording whether the stop check
ever fires (whether the `break` statement executes). -/
def downLoopBroke (c : Option Nat) (igD igU : Bool) : List Matching → List Step → Bool
  | [], _ => false
  | m :: ms, plan =>
    match m with
    | .Divergent x =>
      if igD then downLoopBroke c igD igU ms plan
      else
        let plan' := plan ++ [⟨Dir.Down, x⟩]
        if downCheck c plan' then true else downLoopBroke c igD igU ms plan'
    | .Applied _ | .Variant _ _ =>
      if m.is_reversable then
        let plan' := plan ++ [⟨Dir.Down, m.get_best_down_migration⟩]
        if downCheck c plan' then true else downLoopBroke c igD igU ms plan'
      else if !igU then false
      else if downCheck c plan then true else downLoopBroke c igD igU ms plan
    | .Pending _ =>
      if downCheck c plan then true else downLoopBroke c igD igU ms plan

/-- Whether the stop check of `PlanBuilder2::down` fires during the walk. -/
def PlanBuilder2.down_broke (b : PlanBuilder2) : Bool :=
  downLoopBroke b.count b.ignore_divergent b.ignore_unreversable b.matches'.reverse []

/-- Some non-pending match occurs strictly after some pending match. -/
def DirtySplit (ms : List Matching) : Prop :=
  ∃ l₁ x l₂ y l₃, ms = l₁ ++ x :: (l₂ ++ y :: l₃) ∧
    x.isPendingB = true ∧ y.isPendingB = false

/-- The `Up` steps of a plan carry strictly ascending names. -/
def upOrdered (p : List Step) : Prop :=
  ((p.filter fun s => decide (s.dir = Dir.Up)).map stepName).Chain' (· < ·)

/-- Every contiguous run of `Down` steps carries strictly descending
names. -/
def downRunsOrdered (p : List Step) : Prop :=
  p.Chain' fun s t => s.dir = Dir.Down → t.dir = Dir.Down → t.migration.name < s.migration.name

/-- A test migration as built by the source's unit tests: no up SQL, down
SQL present, no hash. -/
def tmig (n : String) : Migration :=
  ⟨n, none, some "test", none⟩


/-! ### Name order bridges -/

theorem nameLt_iff {a b : String} : nameLt a b = true ↔ a < b := by
  unfold nameLt
  rw [String.lt_iff_toList_lt]
  simp

theorem nameLe_iff {a b : String} : nameLe a b = true ↔ a ≤ b := by
  unfold nameLe
  rw [String.le_iff_toList_le]
  simp

/-! ### Basic facts about matches -/

theorem best_down_reversable (m : Matching) (h : m.is_reversable = true) :
    (m.get_best_down_migration).down_sql.isSome = true := by
  cases m with
  | Applied a => simpa [Matching.is_reversable, Matching.get_best_down_migration] using h
  | Divergent a => simpa [Matching.is_reversable, Matching.get_best_down_migration] using h
  | Pending l => simpa [Matching.is_reversable, Matching.get_best_down_migration] using h
  | Variant l a =>
    simp only [Matching.is_reversable, Bool.or_eq_true] at h
    simp only [Matching.get_best_down_migration]
    rcases h with h | h
    · simp [h]
    · by_cases ha : a.down_sql.isSome <;> simp [ha, h]

theorem best_down_name (m : Matching) (h : m.WfNames) :
    (m.get_best_down_migration).name = m.mname := by
  cases m with
  | Applied a => rfl
  | Divergent a => rfl
  | Pending l => rfl
  | Variant l a =>
    simp only [Matching.WfNames] at h
    simp only [Matching.get_best_down_migration, Matching.mname]
    by_cases ha : a.down_sql.isSome <;> simp [ha, h]

theorem local_migration_name (m : Matching) (x : Migration)
    (h : m.get_local_migration = some x) : x.name = m.mname := by
  cases m with
  | Applied a => cases h; rfl
  | Variant l a => cases h; rfl
  | Divergent a => simp [Matching.get_local_migration] at h
  | Pending l => cases h; rfl

/-! ### find_matches -/

theorem find_matches_wf (l a : List Migration) :
    ∀ m ∈ find_matches l a, m.WfNames := by
  induction l, a using find_matches.induct with
  | case1 => intro m hm; simp [find_matches] at hm
  | case2 a as ih =>
    intro m hm
    simp only [find_matches, List.mem_cons] at hm
    rcases hm with rfl | hm
    · trivial
    · exact ih m hm
  | case3 l ls ih =>
    intro m hm
    simp only [find_matches, List.mem_cons] at hm
    rcases hm with rfl | hm
    · trivial
    · exact ih m hm
  | case4 l ls a as heq ih =>
    intro m hm
    simp only [find_matches, heq, if_true, List.mem_cons] at hm
    rcases hm with rfl | hm
    · by_cases hc : hashes_compatible l a <;> simp_all [Matching.WfNames]
    · exact ih m hm
  | case5 l ls a as heq hlt ih =>
    intro m hm
    simp only [find_matches, heq, hlt, if_false, if_true, List.mem_cons] at hm
    rcases hm with rfl | hm
    · trivial
    · exact ih m hm
  | case6 l ls a as heq hlt ih =>
    intro m hm
    simp only [find_matches, heq, hlt, Bool.false_eq_true, if_false, List.mem_cons] at hm
    rcases hm with rfl | hm
    · trivial
    · exact ih m hm
theorem find_matches_mem_names (l a : List Migration) (y : String)
    (hy : y ∈ (find_matches l a).map Matching.mname) :
    y ∈ l.map Migration.name ∨ y ∈ a.map Migration.name := by
  induction l, a using find_matches.induct with
  | case1 => simp [find_matches] at hy
  | case2 a as ih =>
    simp only [find_matches, List.map_cons, List.mem_cons, Matching.mname] at hy
    rcases hy with rfl | hy
    · simp
    · rcases ih hy with h | h
      · exact Or.inl h
      · right; simp [h]
  | case3 l ls ih =>
    simp only [find_matches, List.map_cons, List.mem_cons, Matching.mname] at hy
    rcases hy with rfl | hy
    · simp
    · rcases ih hy with h | h
      · left; simp [h]
      · exact Or.inr h
  | case4 l ls a as heq ih =>
    simp only [find_matches, heq, if_true, List.map_cons, List.mem_cons] at hy
    by_cases hc : hashes_compatible l a
    · simp only [hc, if_true, Matching.mname] at hy
      rcases hy with rfl | hy
      · right; simp
      · rcases ih hy with h | h
        · left; simp [h]
        · right; simp [h]
    · simp only [hc, if_false, Matching.mname] at hy
      rcases hy with rfl | hy
      · left; simp
      · rcases ih hy with h | h
        · left; simp [h]
        · right; simp [h]
  | case5 l ls a as heq hlt ih =>
    simp only [find_matches, heq, hlt, if_true, if_false, List.map_cons, List.mem_cons,
      Matching.mname] at hy
    rcases hy with rfl | hy
    · left; simp
    · rcases ih hy with h | h
      · left; simp [h]
      · exact Or.inr h
  | case6 l ls a as heq hlt ih =>
    simp only [find_matches, heq, hlt, Bool.false_eq_true, if_false, List.map_cons,
      List.mem_cons, Matching.mname] at hy
    rcases hy with rfl | hy
    · right; simp
    · rcases ih hy with h | h
      · exact Or.inl h
      · right; simp [h]

theorem find_matches_sorted (l a : List Migration)
    (hl : (l.map Migration.name).Pairwise (· < ·))
    (ha : (a.map Migration.name).Pairwise (· < ·)) :
    ((find_matches l a).map Matching.mname).Pairwise (· < ·) := by
  induction l, a using find_matches.induct with
  | case1 => simp [find_matches]
  | case2 a as ih =>
    simp only [find_matches, List.map_cons, List.pairwise_cons, Matching.mname]
    simp only [List.map_cons, List.pairwise_cons] at ha
    refine ⟨?_, ih hl ha.2⟩
    intro y hy
    rcases find_matches_mem_names _ _ _ hy with h | h
    · simp at h
    · exact ha.1 y h
  | case3 l ls ih =>
    simp only [find_matches, List.map_cons, List.pairwise_cons, Matching.mname]
    simp only [List.map_cons, List.pairwise_cons] at hl
    refine ⟨?_, ih hl.2 ha⟩
    intro y hy
    rcases find_matches_mem_names _ _ _ hy with h | h
    · exact hl.1 y h
    · simp at h
  | case4 l ls a as heq ih =>
    simp only [List.map_cons, List.pairwise_cons] at hl ha
    simp only [find_matches, heq, if_true, List.map_cons, List.pairwise_cons]
    constructor
    · intro y hy
      have hname : (if hashes_compatible l a then Matching.Applied a
          else Matching.Variant l a).mname = l.name := by
        by_cases hc : hashes_compatible l a <;> simp [hc, Matching.mname, heq]
      rw [hname]
      rcases find_matches_mem_names _ _ _ hy with h | h
      · exact hl.1 y h
      · rw [heq]; exact ha.1 y h
    · exact ih hl.2 ha.2
  | case5 l ls a as heq hlt ih =>
    simp only [List.map_cons, List.pairwise_cons] at hl
    simp only [find_matches, heq, hlt, if_true, if_false, List.map_cons, List.pairwise_cons,
      Matching.mname]
    constructor
    · intro y hy
      rcases find_matches_mem_names _ _ _ hy with h | h
      · exact hl.1 y h
      · simp only [List.map_cons, List.mem_cons] at h
        rcases h with rfl | h
        · exact nameLt_iff.mp hlt
        · simp only [List.map_cons, List.pairwise_cons] at ha
          exact lt_trans (nameLt_iff.mp hlt) (ha.1 y h)
    · exact ih hl.2 ha
  | case6 l ls a as heq hlt ih =>
    simp only [List.map_cons, List.pairwise_cons] at ha
    have halt : a.name < l.name := by
      rcases lt_trichotomy l.name a.name with h | h | h
      · exact absurd (nameLt_iff.mpr h) hlt
      · exact absurd h heq
      · exact h
    simp only [find_matches, heq, hlt, Bool.false_eq_true, if_false, List.map_cons,
      List.pairwise_cons, Matching.mname]
    constructor
    · intro y hy
      rcases find_matches_mem_names _ _ _ hy with h | h
      · simp only [List.map_cons, List.mem_cons] at h
        rcases h with rfl | h
        · exact halt
        · simp only [List.map_cons, List.pairwise_cons] at hl
          exact lt_trans halt (hl.1 y h)
      · exact ha.1 y h
    · exact ih hl ha.2

/-! ### sortMatches -/

theorem insertMatch_sorted_head (m : Matching) (ms : List Matching)
    (h : ∀ x ∈ ms, m.mname < x.mname) : insertMatch m ms = m :: ms := by
  cases ms with
  | nil => rfl
  | cons h' t =>
    simp only [insertMatch]
    rw [if_pos (nameLe_iff.mpr (le_of_lt (h h' (by simp))))]

theorem sortMatches_eq_self (ms : List Matching)
    (h : (ms.map Matching.mname).Pairwise (· < ·)) : sortMatches ms = ms := by
  induction ms with
  | nil => rfl
  | cons m t ih =>
    simp only [List.map_cons, List.pairwise_cons] at h
    simp only [sortMatches, ih h.2]
    exact insertMatch_sorted_head m t (by intro x hx; exact h.1 x.mname (by simp; exact ⟨x, hx, rfl⟩))
/-! ### The up loop -/

theorem upLoop_plan_none (ms : List Matching) :
    ∀ (acc : List Step) (pf d : Bool),
    (upLoop none ms acc pf d).1 = acc ++ (pendings ms).map fun x => ⟨Dir.Up, x⟩ := by
  induction ms with
  | nil => intro acc pf d; simp [upLoop, pendings]
  | cons m t ih =>
    intro acc pf d
    cases m with
    | Pending x => simp [upLoop, pendings, List.filterMap_cons, ih]
    | Applied a => simpa [upLoop, pendings, List.filterMap_cons] using ih acc pf _
    | Variant l a => simpa [upLoop, pendings, List.filterMap_cons] using ih acc pf _
    | Divergent a => simpa [upLoop, pendings, List.filterMap_cons] using ih acc pf _

theorem upLoop_plan_some (n : Nat) (ms : List Matching) :
    ∀ (acc : List Step) (pf d : Bool), acc.length ≤ n →
    (upLoop (some n) ms acc pf d).1 =
      acc ++ ((pendings ms).take (n - acc.length)).map fun x => ⟨Dir.Up, x⟩ := by
  induction ms with
  | nil => intro acc pf d _; simp [upLoop, pendings]
  | cons m t ih =>
    intro acc pf d hle
    cases m with
    | Pending x =>
      simp only [upLoop, pendings, List.filterMap_cons]
      by_cases hn : n == acc.length
      · have hn' : n = acc.length := by simpa using hn
        rw [if_pos hn]
        rw [ih acc true d hle, hn']
        simp [pendings]
      · rw [if_neg (by simpa using hn)]
        have hne : ¬ n = acc.length := by simpa using hn
        have hlt : acc.length < n := lt_of_le_of_ne hle (fun h => hne h.symm)
        have hlen : (acc ++ [Step.mk Dir.Up x]).length ≤ n := by
          simp only [List.length_append, List.length_cons, List.length_nil]
          omega
        rw [ih (acc ++ [Step.mk Dir.Up x]) true d hlen]
        have htake : n - acc.length = (n - (acc.length + 1)) + 1 := by omega
        simp only [htake, List.take_succ_cons, List.map_cons, List.length_append,
          List.length_cons, List.length_nil]
        simp [pendings]
    | Applied a => simpa [upLoop, pendings, List.filterMap_cons] using ih acc pf _ hle
    | Variant l a => simpa [upLoop, pendings, List.filterMap_cons] using ih acc pf _ hle
    | Divergent a => simpa [upLoop, pendings, List.filterMap_cons] using ih acc pf _ hle

theorem up_ok_plan (b : PlanBuilder2) (p : List Step) (h : b.up = .ok p) :
    p = upPlanOf b := by
  unfold PlanBuilder2.up at h
  by_cases hs : b.strict && (upLoop b.count b.matches' [] false false).2
  · simp [hs] at h
  · simp only [hs, if_false] at h
    cases h
    unfold upPlanOf applyCount
    cases hc : b.count with
    | none => simpa [hc] using (upLoop_plan_none b.matches' [] false false)
    | some n => simpa [hc] using (upLoop_plan_some n b.matches' [] false false (by simp))

/-- The dirty flag accumulated by the rest of the walk, given the
pending-found flag. -/
def dirtyAux (pf : Bool) : List Matching → Bool
  | [] => false
  | m :: ms => if m.isPendingB then dirtyAux true ms else (pf || dirtyAux pf ms)

theorem upLoop_dirty (c : Option Nat) (ms : List Matching) :
    ∀ (acc : List Step) (pf d : Bool),
    (upLoop c ms acc pf d).2 = (d || dirtyAux pf ms) := by
  induction ms with
  | nil => intro acc pf d; simp [upLoop, dirtyAux]
  | cons m t ih =>
    intro acc pf d
    cases m with
    | Pending x =>
      cases c with
      | none => simp only [upLoop, dirtyAux, Matching.isPendingB, if_true]; rw [ih]
      | some n =>
        simp only [upLoop, dirtyAux, Matching.isPendingB, if_true]
        by_cases hn : n == acc.length
        · rw [if_pos hn, ih]
        · rw [if_neg (by simpa using hn), ih]
    | Applied a =>
      simp only [upLoop, dirtyAux, Matching.isPendingB, Bool.false_eq_true, if_false]
      rw [ih]
      cases pf <;> cases d <;> simp
    | Variant l a =>
      simp only [upLoop, dirtyAux, Matching.isPendingB, Bool.false_eq_true, if_false]
      rw [ih]
      cases pf <;> cases d <;> simp
    | Divergent a =>
      simp only [upLoop, dirtyAux, Matching.isPendingB, Bool.false_eq_true, if_false]
      rw [ih]
      cases pf <;> cases d <;> simp
/-! ### The dirty condition -/

theorem dirtySplit_nil : ¬ DirtySplit [] := by
  rintro ⟨l₁, x, l₂, y, l₃, h, -, -⟩
  exact absurd h (by simp)

theorem dirtySplit_exists {ms : List Matching} (h : DirtySplit ms) :
    ∃ y ∈ ms, y.isPendingB = false := by
  obtain ⟨l₁, x, l₂, y, l₃, rfl, -, hy⟩ := h
  exact ⟨y, by simp, hy⟩

theorem dirtySplit_cons_pending {m : Matching} {ms : List Matching}
    (hm : m.isPendingB = true) :
    DirtySplit (m :: ms) ↔ ∃ y ∈ ms, y.isPendingB = false := by
  constructor
  · rintro ⟨l₁, x, l₂, y, l₃, heq, hx, hy⟩
    cases l₁ with
    | nil =>
      simp only [List.nil_append, List.cons.injEq] at heq
      exact ⟨y, by rw [heq.2]; simp, hy⟩
    | cons a t =>
      simp only [List.cons_append, List.cons.injEq] at heq
      refine ⟨y, ?_, hy⟩
      rw [heq.2]
      simp
  · rintro ⟨y, hmem, hy⟩
    obtain ⟨s, t, rfl⟩ := List.append_of_mem hmem
    exact ⟨[], m, s, y, t, by simp, hm, hy⟩

theorem dirtySplit_cons_nonpending {m : Matching} {ms : List Matching}
    (hm : m.isPendingB = false) :
    DirtySplit (m :: ms) ↔ DirtySplit ms := by
  constructor
  · rintro ⟨l₁, x, l₂, y, l₃, heq, hx, hy⟩
    cases l₁ with
    | nil =>
      simp only [List.nil_append, List.cons.injEq] at heq
      rw [heq.1] at hm
      rw [hm] at hx
      exact absurd hx (by simp)
    | cons a t =>
      simp only [List.cons_append, List.cons.injEq] at heq
      exact ⟨t, x, l₂, y, l₃, heq.2, hx, hy⟩
  · rintro ⟨l₁, x, l₂, y, l₃, rfl, hx, hy⟩
    exact ⟨m :: l₁, x, l₂, y, l₃, by simp, hx, hy⟩

theorem dirtyAux_iff (ms : List Matching) : ∀ (pf : Bool),
    dirtyAux pf ms = true ↔
      ((pf = true ∧ ∃ y ∈ ms, y.isPendingB = false) ∨ DirtySplit ms) := by
  induction ms with
  | nil =>
    intro pf
    simp only [dirtyAux, Bool.false_eq_true, false_iff]
    rintro (⟨-, y, hy, -⟩ | h)
    · exact absurd hy (by simp)
    · exact dirtySplit_nil h
  | cons m t ih =>
    intro pf
    by_cases hm : m.isPendingB = true
    · simp only [dirtyAux, hm, if_true]
      rw [ih true, dirtySplit_cons_pending hm]
      constructor
      · rintro (⟨-, h⟩ | h)
        · exact Or.inr h
        · exact Or.inr (dirtySplit_exists h)
      · rintro (⟨hpf, y, hmem, hy⟩ | h)
        · cases List.mem_cons.mp hmem with
          | inl he =>
            rw [he, hm] at hy
            exact absurd hy (by simp)
          | inr hmem' => exact Or.inl ⟨by trivial, y, hmem', hy⟩
        · exact Or.inl ⟨by trivial, h⟩
    · have hm' : m.isPendingB = false := by
        cases h : m.isPendingB
        · rfl
        · exact absurd h hm
      simp only [dirtyAux, hm', Bool.false_eq_true, if_false]
      rw [dirtySplit_cons_nonpending hm']
      cases pf with
      | false =>
        simp only [Bool.false_or]
        rw [ih false]
        constructor
        · rintro (⟨h, -⟩ | h)
          · exact absurd h (by simp)
          · exact Or.inr h
        · rintro (⟨h, -⟩ | h)
          · exact absurd h (by simp)
          · exact Or.inr h
      | true =>
        simp only [Bool.true_or, true_iff]
        exact Or.inl ⟨by trivial, m, by simp, hm'⟩

/-- Whether the up walk is dirty, as the source computes it. -/
theorem up_dirty_iff (b : PlanBuilder2) :
    (upLoop b.count b.matches' [] false false).2 = true ↔ DirtySplit b.matches' := by
  rw [upLoop_dirty]
  simp only [Bool.false_or]
  rw [dirtyAux_iff b.matches' false]
  constructor
  · rintro (⟨h, -⟩ | h)
    · exact absurd h (by simp)
    · exact h
  · exact Or.inr

/-- Up fails exactly on strict plus dirty, and then with `DirtyMigrations`. -/
theorem up_error_iff (b : PlanBuilder2) (hs : b.strict = true) :
    b.up = .error .DirtyMigrations ↔ DirtySplit b.matches' := by
  rw [← up_dirty_iff b]
  simp only [PlanBuilder2.up, hs, Bool.true_and]
  cases h : (upLoop b.count b.matches' [] false false).2 <;> simp [h]

/-- The plan accumulated by the up walk, in closed form. -/
theorem upLoop_plan_builder (b : PlanBuilder2) :
    (upLoop b.count b.matches' [] false false).1 = upPlanOf b := by
  unfold upPlanOf applyCount
  cases hc : b.count with
  | none => simpa [hc] using (upLoop_plan_none b.matches' [] false false)
  | some n => simpa [hc] using (upLoop_plan_some n b.matches' [] false false (by simp))

/-- Up either returns the closed-form plan or fails strict-dirty. -/
theorem up_ok_cases (b : PlanBuilder2) :
    b.up = .ok (upPlanOf b) ∨ (b.strict = true ∧ b.up = .error .DirtyMigrations) := by
  simp only [PlanBuilder2.up]
  cases hs : b.strict with
  | false => simp [upLoop_plan_builder]
  | true =>
    cases h : (upLoop b.count b.matches' [] false false).2 with
    | false => simp [h, upLoop_plan_builder]
    | true => simp [h]
/-! ### The down loop -/

/-- The non-divergent filter used when divergent matches are ignored. -/
def notDivergent (m : Matching) : Bool := !m.isDivergentB

theorem downLoop_none_len (igD igU : Bool) (rest : List Matching) (p : List Step)
    (h : downLoop none igD igU rest [] = .ok p) : p.length ≤ 1 := by
  induction rest with
  | nil => cases h; simp
  | cons m t ih =>
    cases m with
    | Divergent x =>
      cases igD with
      | true =>
        simp only [downLoop, if_true] at h
        exact ih h
      | false =>
        simp only [downLoop, Bool.false_eq_true, if_false, downCheck, List.nil_append,
          List.length_cons, List.length_nil] at h
        cases h
        simp
    | Applied a =>
      by_cases hr : (Matching.Applied a).is_reversable = true
      · simp only [downLoop, hr, if_true, downCheck, List.nil_append, List.length_cons,
          List.length_nil] at h
        cases h
        simp
      · simp only [downLoop, hr, Bool.false_eq_true, if_false] at h
        cases igU with
        | true =>
          simp only [Bool.not_true, Bool.false_eq_true, if_false, downCheck,
            List.length_nil] at h
          exact ih (by simpa using h)
        | false =>
          simp only [Bool.not_false, if_true] at h
          cases h
    | Variant l a =>
      by_cases hr : (Matching.Variant l a).is_reversable = true
      · simp only [downLoop, hr, if_true, downCheck, List.nil_append, List.length_cons,
          List.length_nil] at h
        cases h
        simp
      · simp only [downLoop, hr, Bool.false_eq_true, if_false] at h
        cases igU with
        | true =>
          simp only [Bool.not_true, Bool.false_eq_true, if_false, downCheck,
            List.length_nil] at h
          exact ih (by simpa using h)
        | false =>
          simp only [Bool.not_false, if_true] at h
          cases h
    | Pending x =>
      simp only [downLoop, downCheck, List.length_nil] at h
      exact ih (by simpa using h)

theorem downLoop_filter (c : Option Nat) (igU : Bool) (rest : List Matching) :
    ∀ (acc : List Step),
    downLoop c true igU rest acc = downLoop c true igU (rest.filter notDivergent) acc := by
  induction rest with
  | nil => intro acc; rfl
  | cons m t ih =>
    intro acc
    have hfc : ∀ (ms : List Matching), (m :: ms).filter notDivergent =
        if notDivergent m = true then m :: ms.filter notDivergent else ms.filter notDivergent :=
      fun ms => List.filter_cons
    cases m with
    | Divergent x =>
      rw [hfc]
      simp only [notDivergent, Matching.isDivergentB, Bool.not_true, Bool.false_eq_true,
        if_false]
      simp only [downLoop, if_true]
      exact ih acc
    | Applied a =>
      rw [hfc]
      simp only [notDivergent, Matching.isDivergentB, Bool.not_false, if_true]
      simp only [downLoop]
      by_cases hr : (Matching.Applied a).is_reversable = true
      · simp only [hr, if_true]
        by_cases hk : downCheck c (acc ++ [⟨Dir.Down, (Matching.Applied a).get_best_down_migration⟩]) = true
        · simp only [hk, if_true]
        · simp only [hk, if_false, ih]
      · simp only [hr, Bool.false_eq_true, if_false]
        cases igU with
        | true =>
          simp only [Bool.not_true, Bool.false_eq_true, if_false]
          by_cases hk : downCheck c acc = true
          · simp only [hk, if_true]
          · simp only [hk, if_false, ih]
        | false => simp only [Bool.not_false, if_true]
    | Variant l a =>
      rw [hfc]
      simp only [notDivergent, Matching.isDivergentB, Bool.not_false, if_true]
      simp only [downLoop]
      by_cases hr : (Matching.Variant l a).is_reversable = true
      · simp only [hr, if_true]
        by_cases hk : downCheck c (acc ++ [⟨Dir.Down, (Matching.Variant l a).get_best_down_migration⟩]) = true
        · simp only [hk, if_true]
        · simp only [hk, if_false, ih]
      · simp only [hr, Bool.false_eq_true, if_false]
        cases igU with
        | true =>
          simp only [Bool.not_true, Bool.false_eq_true, if_false]
          by_cases hk : downCheck c acc = true
          · simp only [hk, if_true]
          · simp only [hk, if_false, ih]
        | false => simp only [Bool.not_false, if_true]
    | Pending x =>
      rw [hfc]
      simp only [notDivergent, Matching.isDivergentB, Bool.not_false, if_true]
      simp only [downLoop]
      by_cases hk : downCheck c acc = true
      · simp only [hk, if_true]
      · simp only [hk, if_false, ih]
theorem downLoop_steps (c : Option Nat) (igD igU : Bool) (rest : List Matching) :
    ∀ (acc : List Step) (p : List Step), downLoop c igD igU rest acc = .ok p →
    ∃ q, p = acc ++ q ∧ ∀ s ∈ q, s.dir = Dir.Down ∧
      (s.migration.down_sql.isSome = true ∨ Matching.Divergent s.migration ∈ rest) := by
  induction rest with
  | nil =>
    intro acc p h
    cases h
    exact ⟨[], by simp, by simp⟩
  | cons m t ih =>
    intro acc p h
    have weaken : ∀ (q : List Step), (∀ s ∈ q, s.dir = Dir.Down ∧
        (s.migration.down_sql.isSome = true ∨ Matching.Divergent s.migration ∈ t)) →
        ∀ s ∈ q, s.dir = Dir.Down ∧
        (s.migration.down_sql.isSome = true ∨ Matching.Divergent s.migration ∈ m :: t) := by
      intro q hq s hs
      refine ⟨(hq s hs).1, ?_⟩
      rcases (hq s hs).2 with h' | h'
      · exact Or.inl h'
      · exact Or.inr (List.mem_cons_of_mem m h')
    cases m with
    | Divergent x =>
      cases igD with
      | true =>
        simp only [downLoop, if_true] at h
        obtain ⟨q, rfl, hq⟩ := ih acc p h
        exact ⟨q, rfl, weaken q hq⟩
      | false =>
        simp only [downLoop, Bool.false_eq_true, if_false] at h
        by_cases hk : downCheck c (acc ++ [⟨Dir.Down, x⟩]) = true
        · rw [if_pos hk] at h
          cases h
          refine ⟨[⟨Dir.Down, x⟩], rfl, ?_⟩
          intro s hs
          simp only [List.mem_singleton] at hs
          subst hs
          exact ⟨rfl, Or.inr (by simp)⟩
        · rw [if_neg hk] at h
          obtain ⟨q, rfl, hq⟩ := ih _ p h
          refine ⟨⟨Dir.Down, x⟩ :: q, by simp, ?_⟩
          intro s hs
          rcases List.mem_cons.mp hs with rfl | hs
          · exact ⟨rfl, Or.inr (by simp)⟩
          · exact weaken q hq s hs
    | Applied a =>
      by_cases hr : (Matching.Applied a).is_reversable = true
      · simp only [downLoop, hr, if_true] at h
        by_cases hk : downCheck c (acc ++ [⟨Dir.Down, (Matching.Applied a).get_best_down_migration⟩]) = true
        · rw [if_pos hk] at h
          cases h
          refine ⟨[⟨Dir.Down, (Matching.Applied a).get_best_down_migration⟩], rfl, ?_⟩
          intro s hs
          simp only [List.mem_singleton] at hs
          subst hs
          exact ⟨rfl, Or.inl (best_down_reversable _ hr)⟩
        · rw [if_neg hk] at h
          obtain ⟨q, rfl, hq⟩ := ih _ p h
          refine ⟨⟨Dir.Down, (Matching.Applied a).get_best_down_migration⟩ :: q, by simp, ?_⟩
          intro s hs
          rcases List.mem_cons.mp hs with rfl | hs
          · exact ⟨rfl, Or.inl (best_down_reversable _ hr)⟩
          · exact weaken q hq s hs
      · simp only [downLoop, hr, Bool.false_eq_true, if_false] at h
        cases igU with
        | true =>
          simp only [Bool.not_true, Bool.false_eq_true, if_false] at h
          by_cases hk : downCheck c acc = true
          · rw [if_pos hk] at h
            cases h
            exact ⟨[], by simp, by simp⟩
          · rw [if_neg hk] at h
            obtain ⟨q, rfl, hq⟩ := ih acc p h
            exact ⟨q, rfl, weaken q hq⟩
        | false =>
          simp only [Bool.not_false, if_true] at h
          cases h
    | Variant l a =>
      by_cases hr : (Matching.Variant l a).is_reversable = true
      · simp only [downLoop, hr, if_true] at h
        by_cases hk : downCheck c (acc ++ [⟨Dir.Down, (Matching.Variant l a).get_best_down_migration⟩]) = true
        · rw [if_pos hk] at h
          cases h
          refine ⟨[⟨Dir.Down, (Matching.Variant l a).get_best_down_migration⟩], rfl, ?_⟩
          intro s hs
          simp only [List.mem_singleton] at hs
          subst hs
          exact ⟨rfl, Or.inl (best_down_reversable _ hr)⟩
        · rw [if_neg hk] at h
          obtain ⟨q, rfl, hq⟩ := ih _ p h
          refine ⟨⟨Dir.Down, (Matching.Variant l a).get_best_down_migration⟩ :: q, by simp, ?_⟩
          intro s hs
          rcases List.mem_cons.mp hs with rfl | hs
          · exact ⟨rfl, Or.inl (best_down_reversable _ hr)⟩
          · exact weaken q hq s hs
      · simp only [downLoop, hr, Bool.false_eq_true, if_false] at h
        cases igU with
        | true =>
          simp only [Bool.not_true, Bool.false_eq_true, if_false] at h
          by_cases hk : downCheck c acc = true
          · rw [if_pos hk] at h
            cases h
            exact ⟨[], by simp, by simp⟩
          · rw [if_neg hk] at h
            obtain ⟨q, rfl, hq⟩ := ih acc p h
            exact ⟨q, rfl, weaken q hq⟩
        | false =>
          simp only [Bool.not_false, if_true] at h
          cases h
    | Pending x =>
      simp only [downLoop] at h
      by_cases hk : downCheck c acc = true
      · rw [if_pos hk] at h
        cases h
        exact ⟨[], by simp, by simp⟩
      · rw [if_neg hk] at h
        obtain ⟨q, rfl, hq⟩ := ih acc p h
        exact ⟨q, rfl, weaken q hq⟩
theorem downLoop_names (c : Option Nat) (igD igU : Bool) (rest : List Matching) :
    ∀ (acc : List Step) (p : List Step), (∀ m ∈ rest, m.WfNames) →
    downLoop c igD igU rest acc = .ok p →
    ∃ q, p = acc ++ q ∧ (q.map stepName).Sublist (rest.map Matching.mname) := by
  induction rest with
  | nil =>
    intro acc p _ h
    cases h
    exact ⟨[], by simp, by simp⟩
  | cons m t ih =>
    intro acc p hwf h
    have hwft : ∀ m' ∈ t, m'.WfNames := fun m' hm' => hwf m' (List.mem_cons_of_mem m hm')
    cases m with
    | Divergent x =>
      cases igD with
      | true =>
        simp only [downLoop, if_true] at h
        obtain ⟨q, rfl, hq⟩ := ih acc p hwft h
        exact ⟨q, rfl, hq.trans (by simp)⟩
      | false =>
        simp only [downLoop, Bool.false_eq_true, if_false] at h
        by_cases hk : downCheck c (acc ++ [⟨Dir.Down, x⟩]) = true
        · rw [if_pos hk] at h
          cases h
          exact ⟨[⟨Dir.Down, x⟩], rfl, by simp [stepName, Matching.mname]⟩
        · rw [if_neg hk] at h
          obtain ⟨q, rfl, hq⟩ := ih _ p hwft h
          refine ⟨⟨Dir.Down, x⟩ :: q, by simp, ?_⟩
          simp only [List.map_cons, stepName, Matching.mname]
          exact List.Sublist.cons₂ _ hq
    | Applied a =>
      by_cases hr : (Matching.Applied a).is_reversable = true
      · simp only [downLoop, hr, if_true] at h
        by_cases hk : downCheck c (acc ++ [⟨Dir.Down, (Matching.Applied a).get_best_down_migration⟩]) = true
        · rw [if_pos hk] at h
          cases h
          exact ⟨[⟨Dir.Down, (Matching.Applied a).get_best_down_migration⟩], rfl,
            by simp [stepName, Matching.mname, Matching.get_best_down_migration]⟩
        · rw [if_neg hk] at h
          obtain ⟨q, rfl, hq⟩ := ih _ p hwft h
          refine ⟨⟨Dir.Down, (Matching.Applied a).get_best_down_migration⟩ :: q, by simp, ?_⟩
          simp only [List.map_cons, stepName, Matching.mname, Matching.get_best_down_migration]
          exact List.Sublist.cons₂ _ hq
      · simp only [downLoop, hr, Bool.false_eq_true, if_false] at h
        cases igU with
        | true =>
          simp only [Bool.not_true, Bool.false_eq_true, if_false] at h
          by_cases hk : downCheck c acc = true
          · rw [if_pos hk] at h
            cases h
            exact ⟨[], by simp, by simp⟩
          · rw [if_neg hk] at h
            obtain ⟨q, rfl, hq⟩ := ih acc p hwft h
            exact ⟨q, rfl, hq.trans (by simp)⟩
        | false =>
          simp only [Bool.not_false, if_true] at h
          cases h
    | Variant l a =>
      have hbn : ((Matching.Variant l a).get_best_down_migration).name =
          (Matching.Variant l a).mname :=
        best_down_name _ (hwf _ (by simp))
      by_cases hr : (Matching.Variant l a).is_reversable = true
      · simp only [downLoop, hr, if_true] at h
        by_cases hk : downCheck c (acc ++ [⟨Dir.Down, (Matching.Variant l a).get_best_down_migration⟩]) = true
        · rw [if_pos hk] at h
          cases h
          refine ⟨[⟨Dir.Down, (Matching.Variant l a).get_best_down_migration⟩], rfl, ?_⟩
          simp only [List.map_cons, List.map_nil, stepName, hbn]
          simp
        · rw [if_neg hk] at h
          obtain ⟨q, rfl, hq⟩ := ih _ p hwft h
          refine ⟨⟨Dir.Down, (Matching.Variant l a).get_best_down_migration⟩ :: q, by simp, ?_⟩
          simp only [List.map_cons, stepName, hbn]
          exact List.Sublist.cons₂ _ hq
      · simp only [downLoop, hr, Bool.false_eq_true, if_false] at h
        cases igU with
        | true =>
          simp only [Bool.not_true, Bool.false_eq_true, if_false] at h
          by_cases hk : downCheck c acc = true
          · rw [if_pos hk] at h
            cases h
            exact ⟨[], by simp, by simp⟩
          · rw [if_neg hk] at h
            obtain ⟨q, rfl, hq⟩ := ih acc p hwft h
            exact ⟨q, rfl, hq.trans (by simp)⟩
        | false =>
          simp only [Bool.not_false, if_true] at h
          cases h
    | Pending x =>
      simp only [downLoop] at h
      by_cases hk : downCheck c acc = true
      · rw [if_pos hk] at h
        cases h
        exact ⟨[], by simp, by simp⟩
      · rw [if_neg hk] at h
        obtain ⟨q, rfl, hq⟩ := ih acc p hwft h
        exact ⟨q, rfl, hq.trans (by simp)⟩
theorem downCheck_zero_ne_nil {plan : List Step} (h : plan ≠ []) :
    downCheck (some 0) plan = false := by
  simp only [downCheck, beq_eq_false_iff_ne, ne_eq]
  intro he
  exact h (List.length_eq_zero.mp he.symm)

theorem downLoop_count0_full (igD igU : Bool) (rest : List Matching) :
    ∀ (acc : List Step) (p : List Step), acc ≠ [] →
    downLoop (some 0) igD igU rest acc = .ok p →
    p = acc ++ rest.filterMap (qualifyStep igD) := by
  induction rest with
  | nil =>
    intro acc p _ h
    cases h
    simp
  | cons m t ih =>
    intro acc p hne h
    cases m with
    | Divergent x =>
      cases igD with
      | true =>
        simp only [downLoop, if_true] at h
        simpa [List.filterMap_cons, qualifyStep, qualifies] using ih acc p hne h
      | false =>
        simp only [downLoop, Bool.false_eq_true, if_false] at h
        rw [if_neg (by rw [downCheck_zero_ne_nil (by simp)]; simp)] at h
        have := ih _ p (by simp) h
        rw [this]
        simp [List.filterMap_cons, qualifyStep, qualifies, Matching.get_best_down_migration]
    | Applied a =>
      by_cases hr : (Matching.Applied a).is_reversable = true
      · simp only [downLoop, hr, if_true] at h
        rw [if_neg (by rw [downCheck_zero_ne_nil (by simp)]; simp)] at h
        have := ih _ p (by simp) h
        rw [this]
        simp [List.filterMap_cons, qualifyStep, qualifies, hr]
      · simp only [downLoop, hr, Bool.false_eq_true, if_false] at h
        cases igU with
        | true =>
          simp only [Bool.not_true, Bool.false_eq_true, if_false] at h
          rw [if_neg (by rw [downCheck_zero_ne_nil hne]; simp)] at h
          have hrf : (Matching.Applied a).is_reversable = false := by
            cases hx : (Matching.Applied a).is_reversable
            · rfl
            · exact absurd hx hr
          simpa [List.filterMap_cons, qualifyStep, qualifies, hrf] using ih acc p hne h
        | false =>
          simp only [Bool.not_false, if_true] at h
          cases h
    | Variant l a =>
      by_cases hr : (Matching.Variant l a).is_reversable = true
      · simp only [downLoop, hr, if_true] at h
        rw [if_neg (by rw [downCheck_zero_ne_nil (by simp)]; simp)] at h
        have := ih _ p (by simp) h
        rw [this]
        simp [List.filterMap_cons, qualifyStep, qualifies, hr]
      · simp only [downLoop, hr, Bool.false_eq_true, if_false] at h
        cases igU with
        | true =>
          simp only [Bool.not_true, Bool.false_eq_true, if_false] at h
          rw [if_neg (by rw [downCheck_zero_ne_nil hne]; simp)] at h
          have hrf : (Matching.Variant l a).is_reversable = false := by
            cases hx : (Matching.Variant l a).is_reversable
            · rfl
            · exact absurd hx hr
          simpa [List.filterMap_cons, qualifyStep, qualifies, hrf] using ih acc p hne h
        | false =>
          simp only [Bool.not_false, if_true] at h
          cases h
    | Pending x =>
      simp only [downLoop] at h
      rw [if_neg (by rw [downCheck_zero_ne_nil hne]; simp)] at h
      simpa [List.filterMap_cons, qualifyStep, qualifies] using ih acc p hne h

theorem downLoop_count0_start (igD igU : Bool) (rest : List Matching) (p : List Step)
    (h : downLoop (some 0) igD igU rest [] = .ok p) :
    (downAppendsFirst igD rest = true ∧ p = rest.filterMap (qualifyStep igD)) ∨
      (downAppendsFirst igD rest = false ∧ p = []) := by
  induction rest with
  | nil =>
    cases h
    exact Or.inr ⟨rfl, rfl⟩
  | cons m t ih =>
    cases m with
    | Divergent x =>
      cases igD with
      | true =>
        simp only [downLoop, if_true] at h
        rcases ih h with ⟨h1, h2⟩ | ⟨h1, h2⟩
        · exact Or.inl ⟨by simpa [downAppendsFirst] using h1,
            by simpa [List.filterMap_cons, qualifyStep, qualifies] using h2⟩
        · exact Or.inr ⟨by simpa [downAppendsFirst] using h1, h2⟩
      | false =>
        simp only [downLoop, Bool.false_eq_true, if_false] at h
        rw [if_neg (by rw [downCheck_zero_ne_nil (by simp)]; simp)] at h
        have := downLoop_count0_full false igU t _ p (by simp) h
        refine Or.inl ⟨by simp [downAppendsFirst], ?_⟩
        rw [this]
        simp [List.filterMap_cons, qualifyStep, qualifies, Matching.get_best_down_migration]
    | Applied a =>
      by_cases hr : (Matching.Applied a).is_reversable = true
      · simp only [downLoop, hr, if_true] at h
        rw [if_neg (by rw [downCheck_zero_ne_nil (by simp)]; simp)] at h
        have := downLoop_count0_full igD igU t _ p (by simp) h
        refine Or.inl ⟨by simp [downAppendsFirst, hr], ?_⟩
        rw [this]
        simp [List.filterMap_cons, qualifyStep, qualifies, hr]
      · have hrf : (Matching.Applied a).is_reversable = false := by
          cases hx : (Matching.Applied a).is_reversable
          · rfl
          · exact absurd hx hr
        simp only [downLoop, hr, Bool.false_eq_true, if_false] at h
        cases igU with
        | true =>
          simp only [Bool.not_true, Bool.false_eq_true, if_false] at h
          rw [if_pos (by simp [downCheck])] at h
          cases h
          exact Or.inr ⟨by simp [downAppendsFirst, hrf], rfl⟩
        | false =>
          simp only [Bool.not_false, if_true] at h
          cases h
    | Variant l a =>
      by_cases hr : (Matching.Variant l a).is_reversable = true
      · simp only [downLoop, hr, if_true] at h
        rw [if_neg (by rw [downCheck_zero_ne_nil (by simp)]; simp)] at h
        have := downLoop_count0_full igD igU t _ p (by simp) h
        refine Or.inl ⟨by simp [downAppendsFirst, hr], ?_⟩
        rw [this]
        simp [List.filterMap_cons, qualifyStep, qualifies, hr]
      · have hrf : (Matching.Variant l a).is_reversable = false := by
          cases hx : (Matching.Variant l a).is_reversable
          · rfl
          · exact absurd hx hr
        simp only [downLoop, hr, Bool.false_eq_true, if_false] at h
        cases igU with
        | true =>
          simp only [Bool.not_true, Bool.false_eq_true, if_false] at h
          rw [if_pos (by simp [downCheck])] at h
          cases h
          exact Or.inr ⟨by simp [downAppendsFirst, hrf], rfl⟩
        | false =>
          simp only [Bool.not_false, if_true] at h
          cases h
    | Pending x =>
      simp only [downLoop] at h
      rw [if_pos (by simp [downCheck])] at h
      cases h
      exact Or.inr ⟨by simp [downAppendsFirst], rfl⟩
/-! ### The fix loop -/

theorem fixLoop_steps (ms : List Matching) :
    ∀ (bad : Bool) (rbr ru rbr' ru' : List Step),
    fixLoop ms bad rbr ru = .ok (rbr', ru') →
    ∃ dq uq, rbr' = rbr ++ dq ∧ ru' = ru ++ uq ∧
      (∀ s ∈ dq, s.dir = Dir.Down ∧ s.migration.down_sql.isSome = true) ∧
      (∀ s ∈ uq, s.dir = Dir.Up) := by
  induction ms with
  | nil =>
    intro bad rbr ru rbr' ru' h
    cases h
    exact ⟨[], [], by simp, by simp, by simp, by simp⟩
  | cons m t ih =>
    intro bad rbr ru rbr' ru' h
    cases m with
    | Divergent x =>
      by_cases hr : (Matching.Divergent x).is_reversable = true
      · simp only [fixLoop, hr, if_true] at h
        obtain ⟨dq, uq, rfl, rfl, hd, hu⟩ := ih _ _ _ _ _ h
        refine ⟨⟨Dir.Down, x⟩ :: dq, uq, by simp, rfl, ?_, hu⟩
        intro s hs
        rcases List.mem_cons.mp hs with rfl | hs
        · exact ⟨rfl, best_down_reversable (Matching.Divergent x) hr⟩
        · exact hd s hs
      · simp only [fixLoop, hr, Bool.false_eq_true, if_false] at h
        cases h
    | Variant l a =>
      by_cases hr : (Matching.Variant l a).is_reversable = true
      · simp only [fixLoop, hr, if_true] at h
        obtain ⟨dq, uq, rfl, rfl, hd, hu⟩ := ih _ _ _ _ _ h
        refine ⟨⟨Dir.Down, (Matching.Variant l a).get_best_down_migration⟩ :: dq,
          ⟨Dir.Up, (Matching.Variant l a).get_local_migration.get!⟩ :: uq, by simp, by simp, ?_, ?_⟩
        · intro s hs
          rcases List.mem_cons.mp hs with rfl | hs
          · exact ⟨rfl, best_down_reversable _ hr⟩
          · exact hd s hs
        · intro s hs
          rcases List.mem_cons.mp hs with rfl | hs
          · rfl
          · exact hu s hs
      · simp only [fixLoop, hr, Bool.false_eq_true, if_false] at h
        cases h
    | Applied x =>
      cases bad with
      | true =>
        by_cases hr : (Matching.Applied x).is_reversable = true
        · simp only [fixLoop, hr, if_true] at h
          obtain ⟨dq, uq, rfl, rfl, hd, hu⟩ := ih _ _ _ _ _ h
          refine ⟨⟨Dir.Down, x⟩ :: dq, ⟨Dir.Up, x⟩ :: uq, by simp, by simp, ?_, ?_⟩
          · intro s hs
            rcases List.mem_cons.mp hs with rfl | hs
            · exact ⟨rfl, by simpa [Matching.is_reversable] using hr⟩
            · exact hd s hs
          · intro s hs
            rcases List.mem_cons.mp hs with rfl | hs
            · rfl
            · exact hu s hs
        · simp only [fixLoop, hr, Bool.false_eq_true, if_false] at h
          cases h
      | false =>
        simp only [fixLoop, Bool.false_eq_true, if_false] at h
        exact ih _ _ _ _ _ h
    | Pending x =>
      simp only [fixLoop] at h
      obtain ⟨dq, uq, rfl, rfl, hd, hu⟩ := ih _ _ _ _ _ h
      refine ⟨dq, ⟨Dir.Up, x⟩ :: uq, rfl, by simp, hd, ?_⟩
      intro s hs
      rcases List.mem_cons.mp hs with rfl | hs
      · rfl
      · exact hu s hs

theorem fixLoop_names (ms : List Matching) :
    ∀ (bad : Bool) (rbr ru rbr' ru' : List Step), (∀ m ∈ ms, m.WfNames) →
    fixLoop ms bad rbr ru = .ok (rbr', ru') →
    ∃ dq uq, rbr' = rbr ++ dq ∧ ru' = ru ++ uq ∧
      (dq.map stepName).Sublist (ms.map Matching.mname) ∧
      (uq.map stepName).Sublist (ms.map Matching.mname) := by
  induction ms with
  | nil =>
    intro bad rbr ru rbr' ru' _ h
    cases h
    exact ⟨[], [], by simp, by simp, by simp, by simp⟩
  | cons m t ih =>
    intro bad rbr ru rbr' ru' hwf h
    have hwft : ∀ m' ∈ t, m'.WfNames := fun m' hm' => hwf m' (List.mem_cons_of_mem m hm')
    cases m with
    | Divergent x =>
      by_cases hr : (Matching.Divergent x).is_reversable = true
      · simp only [fixLoop, hr, if_true] at h
        obtain ⟨dq, uq, rfl, rfl, hd, hu⟩ := ih _ _ _ _ _ hwft h
        refine ⟨⟨Dir.Down, x⟩ :: dq, uq, by simp, rfl, ?_, hu.trans (by simp)⟩
        simp only [List.map_cons, stepName, Matching.mname]
        exact List.Sublist.cons₂ _ hd
      · simp only [fixLoop, hr, Bool.false_eq_true, if_false] at h
        cases h
    | Variant l a =>
      have hbn : ((Matching.Variant l a).get_best_down_migration).name =
          (Matching.Variant l a).mname :=
        best_down_name _ (hwf _ (by simp))
      by_cases hr : (Matching.Variant l a).is_reversable = true
      · simp only [fixLoop, hr, if_true] at h
        obtain ⟨dq, uq, rfl, rfl, hd, hu⟩ := ih _ _ _ _ _ hwft h
        refine ⟨⟨Dir.Down, (Matching.Variant l a).get_best_down_migration⟩ :: dq,
          ⟨Dir.Up, (Matching.Variant l a).get_local_migration.get!⟩ :: uq, by simp, by simp, ?_, ?_⟩
        · simp only [List.map_cons, stepName, hbn]
          exact List.Sublist.cons₂ _ hd
        · simp only [List.map_cons, stepName, Matching.get_local_migration, Option.get!,
            Matching.mname]
          exact List.Sublist.cons₂ _ hu
      · simp only [fixLoop, hr, Bool.false_eq_true, if_false] at h
        cases h
    | Applied x =>
      cases bad with
      | true =>
        by_cases hr : (Matching.Applied x).is_reversable = true
        · simp only [fixLoop, hr, if_true] at h
          obtain ⟨dq, uq, rfl, rfl, hd, hu⟩ := ih _ _ _ _ _ hwft h
          refine ⟨⟨Dir.Down, x⟩ :: dq, ⟨Dir.Up, x⟩ :: uq, by simp, by simp, ?_, ?_⟩
          · simp only [List.map_cons, stepName, Matching.mname]
            exact List.Sublist.cons₂ _ hd
          · simp only [List.map_cons, stepName, Matching.mname]
            exact List.Sublist.cons₂ _ hu
        · simp only [fixLoop, hr, Bool.false_eq_true, if_false] at h
          cases h
      | false =>
        simp only [fixLoop, Bool.false_eq_true, if_false] at h
        obtain ⟨dq, uq, rfl, rfl, hd, hu⟩ := ih _ _ _ _ _ hwft h
        exact ⟨dq, uq, rfl, rfl, hd.trans (by simp), hu.trans (by simp)⟩
    | Pending x =>
      simp only [fixLoop] at h
      obtain ⟨dq, uq, rfl, rfl, hd, hu⟩ := ih _ _ _ _ _ hwft h
      refine ⟨dq, ⟨Dir.Up, x⟩ :: uq, rfl, by simp, hd.trans (by simp), ?_⟩
      simp only [List.map_cons, stepName, Matching.mname]
      exact List.Sublist.cons₂ _ hu

theorem fixLoop_applied (ms : List Matching) :
    ∀ (rbr ru : List Step), (∀ m ∈ ms, m.isAppliedB = true) →
    fixLoop ms false rbr ru = .ok (rbr, ru) := by
  induction ms with
  | nil => intro rbr ru _; rfl
  | cons m t ih =>
    intro rbr ru hap
    cases m with
    | Applied x =>
      simp only [fixLoop, Bool.false_eq_true, if_false]
      exact ih rbr ru (fun m' hm' => hap m' (List.mem_cons_of_mem _ hm'))
    | Divergent x => exact absurd (hap (Matching.Divergent x) (by simp)) (by simp [Matching.isAppliedB])
    | Variant l a => exact absurd (hap (Matching.Variant l a) (by simp)) (by simp [Matching.isAppliedB])
    | Pending x => exact absurd (hap (Matching.Pending x) (by simp)) (by simp [Matching.isAppliedB])
/-! ### The redo loop -/

theorem redoLoop_divergent (c : Option Nat) (igU : Bool) (d : Migration)
    (rest : List Matching) (rb ru : List Step) :
    redoLoop c false igU (.Divergent d :: rest) rb ru = .error .DivergentMigration := by
  simp [redoLoop]

theorem redoLoop_filter (c : Option Nat) (igU : Bool) (rest : List Matching) :
    ∀ (rb ru : List Step),
    redoLoop c true igU rest rb ru = redoLoop c true igU (rest.filter notDivergent) rb ru := by
  induction rest with
  | nil => intro rb ru; rfl
  | cons m t ih =>
    intro rb ru
    have hfc : ∀ (ms : List Matching), (m :: ms).filter notDivergent =
        if notDivergent m = true then m :: ms.filter notDivergent else ms.filter notDivergent :=
      fun ms => List.filter_cons
    cases m with
    | Divergent x =>
      rw [hfc]
      simp only [notDivergent, Matching.isDivergentB, Bool.not_true, Bool.false_eq_true,
        if_false]
      simp only [redoLoop, if_true]
      exact ih rb ru
    | Applied a =>
      rw [hfc]
      simp only [notDivergent, Matching.isDivergentB, Bool.not_false, if_true]
      simp only [redoLoop]
      by_cases hr : (Matching.Applied a).is_reversable = true
      · simp only [hr, if_true]
        by_cases hk : downCheck c (rb ++ [⟨Dir.Down, (Matching.Applied a).get_best_down_migration⟩]) = true
        · simp only [hk, if_true]
        · simp only [hk, if_false, ih]
      · simp only [hr, Bool.false_eq_true, if_false]
        cases igU with
        | true =>
          simp only [Bool.not_true, Bool.false_eq_true, if_false]
          by_cases hk : downCheck c rb = true
          · simp only [hk, if_true]
          · simp only [hk, if_false, ih]
        | false => simp only [Bool.not_false, if_true]
    | Variant l a =>
      rw [hfc]
      simp only [notDivergent, Matching.isDivergentB, Bool.not_false, if_true]
      simp only [redoLoop]
      by_cases hr : (Matching.Variant l a).is_reversable = true
      · simp only [hr, if_true]
        by_cases hk : downCheck c (rb ++ [⟨Dir.Down, (Matching.Variant l a).get_best_down_migration⟩]) = true
        · simp only [hk, if_true]
        · simp only [hk, if_false, ih]
      · simp only [hr, Bool.false_eq_true, if_false]
        cases igU with
        | true =>
          simp only [Bool.not_true, Bool.false_eq_true, if_false]
          by_cases hk : downCheck c rb = true
          · simp only [hk, if_true]
          · simp only [hk, if_false, ih]
        | false => simp only [Bool.not_false, if_true]
    | Pending x =>
      rw [hfc]
      simp only [notDivergent, Matching.isDivergentB, Bool.not_false, if_true]
      simp only [redoLoop]
      by_cases hk : downCheck c rb = true
      · simp only [hk, if_true]
      · simp only [hk, if_false, ih]

theorem redoLoop_steps (c : Option Nat) (igD igU : Bool) (rest : List Matching) :
    ∀ (rb ru rb' ru' : List Step), redoLoop c igD igU rest rb ru = .ok (rb', ru') →
    ∃ dq uq, rb' = rb ++ dq ∧ ru' = ru ++ uq ∧
      (∀ s ∈ dq, s.dir = Dir.Down ∧ s.migration.down_sql.isSome = true) ∧
      (∀ s ∈ uq, s.dir = Dir.Up) := by
  induction rest with
  | nil =>
    intro rb ru rb' ru' h
    cases h
    exact ⟨[], [], by simp, by simp, by simp, by simp⟩
  | cons m t ih =>
    intro rb ru rb' ru' h
    cases m with
    | Divergent x =>
      cases igD with
      | true =>
        simp only [redoLoop, if_true] at h
        exact ih _ _ _ _ h
      | false =>
        simp only [redoLoop, Bool.false_eq_true, if_false] at h
        cases h
    | Applied a =>
      by_cases hr : (Matching.Applied a).is_reversable = true
      · simp only [redoLoop, hr, if_true] at h
        by_cases hk : downCheck c (rb ++ [⟨Dir.Down, (Matching.Applied a).get_best_down_migration⟩]) = true
        · rw [if_pos hk] at h
          cases h
          refine ⟨[⟨Dir.Down, (Matching.Applied a).get_best_down_migration⟩],
            [⟨Dir.Up, (Matching.Applied a).get_local_migration.get!⟩], rfl, rfl, ?_, ?_⟩
          · intro s hs
            simp only [List.mem_singleton] at hs
            subst hs
            exact ⟨rfl, best_down_reversable _ hr⟩
          · intro s hs
            simp only [List.mem_singleton] at hs
            subst hs
            rfl
        · rw [if_neg hk] at h
          obtain ⟨dq, uq, rfl, rfl, hd, hu⟩ := ih _ _ _ _ h
          refine ⟨⟨Dir.Down, (Matching.Applied a).get_best_down_migration⟩ :: dq,
            ⟨Dir.Up, (Matching.Applied a).get_local_migration.get!⟩ :: uq, by simp, by simp, ?_, ?_⟩
          · intro s hs
            rcases List.mem_cons.mp hs with rfl | hs
            · exact ⟨rfl, best_down_reversable _ hr⟩
            · exact hd s hs
          · intro s hs
            rcases List.mem_cons.mp hs with rfl | hs
            · rfl
            · exact hu s hs
      · simp only [redoLoop, hr, Bool.false_eq_true, if_false] at h
        cases igU with
        | true =>
          simp only [Bool.not_true, Bool.false_eq_true, if_false] at h
          by_cases hk : downCheck c rb = true
          · rw [if_pos hk] at h
            cases h
            exact ⟨[], [], by simp, by simp, by simp, by simp⟩
          · rw [if_neg hk] at h
            exact ih _ _ _ _ h
        | false =>
          simp only [Bool.not_false, if_true] at h
          cases h
    | Variant l a =>
      by_cases hr : (Matching.Variant l a).is_reversable = true
      · simp only [redoLoop, hr, if_true] at h
        by_cases hk : downCheck c (rb ++ [⟨Dir.Down, (Matching.Variant l a).get_best_down_migration⟩]) = true
        · rw [if_pos hk] at h
          cases h
          refine ⟨[⟨Dir.Down, (Matching.Variant l a).get_best_down_migration⟩],
            [⟨Dir.Up, (Matching.Variant l a).get_local_migration.get!⟩], rfl, rfl, ?_, ?_⟩
          · intro s hs
            simp only [List.mem_singleton] at hs
            subst hs
            exact ⟨rfl, best_down_reversable _ hr⟩
          · intro s hs
            simp only [List.mem_singleton] at hs
            subst hs
            rfl
        · rw [if_neg hk] at h
          obtain ⟨dq, uq, rfl, rfl, hd, hu⟩ := ih _ _ _ _ h
          refine ⟨⟨Dir.Down, (Matching.Variant l a).get_best_down_migration⟩ :: dq,
            ⟨Dir.Up, (Matching.Variant l a).get_local_migration.get!⟩ :: uq, by simp, by simp, ?_, ?_⟩
          · intro s hs
            rcases List.mem_cons.mp hs with rfl | hs
            · exact ⟨rfl, best_down_reversable _ hr⟩
            · exact hd s hs
          · intro s hs
            rcases List.mem_cons.mp hs with rfl | hs
            · rfl
            · exact hu s hs
      · simp only [redoLoop, hr, Bool.false_eq_true, if_false] at h
        cases igU with
        | true =>
          simp only [Bool.not_true, Bool.false_eq_true, if_false] at h
          by_cases hk : downCheck c rb = true
          · rw [if_pos hk] at h
            cases h
            exact ⟨[], [], by simp, by simp, by simp, by simp⟩
          · rw [if_neg hk] at h
            exact ih _ _ _ _ h
        | false =>
          simp only [Bool.not_false, if_true] at h
          cases h
    | Pending x =>
      simp only [redoLoop] at h
      by_cases hk : downCheck c rb = true
      · rw [if_pos hk] at h
        cases h
        exact ⟨[], [], by simp, by simp, by simp, by simp⟩
      · rw [if_neg hk] at h
        exact ih _ _ _ _ h
theorem redoLoop_names (c : Option Nat) (igD igU : Bool) (rest : List Matching) :
    ∀ (rb ru rb' ru' : List Step), (∀ m ∈ rest, m.WfNames) →
    redoLoop c igD igU rest rb ru = .ok (rb', ru') →
    ∃ dq uq, rb' = rb ++ dq ∧ ru' = ru ++ uq ∧
      (dq.map stepName).Sublist (rest.map Matching.mname) ∧
      (uq.map stepName).Sublist (rest.map Matching.mname) := by
  induction rest with
  | nil =>
    intro rb ru rb' ru' _ h
    cases h
    exact ⟨[], [], by simp, by simp, by simp, by simp⟩
  | cons m t ih =>
    intro rb ru rb' ru' hwf h
    have hwft : ∀ m' ∈ t, m'.WfNames := fun m' hm' => hwf m' (List.mem_cons_of_mem m hm')
    cases m with
    | Divergent x =>
      cases igD with
      | true =>
        simp only [redoLoop, if_true] at h
        obtain ⟨dq, uq, rfl, rfl, hd, hu⟩ := ih _ _ _ _ hwft h
        exact ⟨dq, uq, rfl, rfl, hd.trans (by simp), hu.trans (by simp)⟩
      | false =>
        simp only [redoLoop, Bool.false_eq_true, if_false] at h
        cases h
    | Applied a =>
      by_cases hr : (Matching.Applied a).is_reversable = true
      · simp only [redoLoop, hr, if_true] at h
        by_cases hk : downCheck c (rb ++ [⟨Dir.Down, (Matching.Applied a).get_best_down_migration⟩]) = true
        · rw [if_pos hk] at h
          cases h
          refine ⟨[⟨Dir.Down, (Matching.Applied a).get_best_down_migration⟩],
            [⟨Dir.Up, (Matching.Applied a).get_local_migration.get!⟩], rfl, rfl, ?_, ?_⟩
          · simp [stepName, Matching.mname, Matching.get_best_down_migration]
          · simp [stepName, Matching.mname, Matching.get_local_migration, Option.get!]
        · rw [if_neg hk] at h
          obtain ⟨dq, uq, rfl, rfl, hd, hu⟩ := ih _ _ _ _ hwft h
          refine ⟨⟨Dir.Down, (Matching.Applied a).get_best_down_migration⟩ :: dq,
            ⟨Dir.Up, (Matching.Applied a).get_local_migration.get!⟩ :: uq, by simp, by simp, ?_, ?_⟩
          · simp only [List.map_cons, stepName, Matching.mname, Matching.get_best_down_migration]
            exact List.Sublist.cons₂ _ hd
          · simp only [List.map_cons, stepName, Matching.mname, Matching.get_local_migration,
              Option.get!]
            exact List.Sublist.cons₂ _ hu
      · simp only [redoLoop, hr, Bool.false_eq_true, if_false] at h
        cases igU with
        | true =>
          simp only [Bool.not_true, Bool.false_eq_true, if_false] at h
          by_cases hk : downCheck c rb = true
          · rw [if_pos hk] at h
            cases h
            exact ⟨[], [], by simp, by simp, by simp, by simp⟩
          · rw [if_neg hk] at h
            obtain ⟨dq, uq, rfl, rfl, hd, hu⟩ := ih _ _ _ _ hwft h
            exact ⟨dq, uq, rfl, rfl, hd.trans (by simp), hu.trans (by simp)⟩
        | false =>
          simp only [Bool.not_false, if_true] at h
          cases h
    | Variant l a =>
      have hbn : ((Matching.Variant l a).get_best_down_migration).name =
          (Matching.Variant l a).mname :=
        best_down_name _ (hwf _ (by simp))
      by_cases hr : (Matching.Variant l a).is_reversable = true
      · simp only [redoLoop, hr, if_true] at h
        by_cases hk : downCheck c (rb ++ [⟨Dir.Down, (Matching.Variant l a).get_best_down_migration⟩]) = true
        · rw [if_pos hk] at h
          cases h
          refine ⟨[⟨Dir.Down, (Matching.Variant l a).get_best_down_migration⟩],
            [⟨Dir.Up, (Matching.Variant l a).get_local_migration.get!⟩], rfl, rfl, ?_, ?_⟩
          · simp only [List.map_cons, List.map_nil, stepName, hbn]
            simp
          · simp [stepName, Matching.mname, Matching.get_local_migration, Option.get!]
        · rw [if_neg hk] at h
          obtain ⟨dq, uq, rfl, rfl, hd, hu⟩ := ih _ _ _ _ hwft h
          refine ⟨⟨Dir.Down, (Matching.Variant l a).get_best_down_migration⟩ :: dq,
            ⟨Dir.Up, (Matching.Variant l a).get_local_migration.get!⟩ :: uq, by simp, by simp, ?_, ?_⟩
          · simp only [List.map_cons, stepName, hbn]
            exact List.Sublist.cons₂ _ hd
          · simp only [List.map_cons, stepName, Matching.mname, Matching.get_local_migration,
              Option.get!]
            exact List.Sublist.cons₂ _ hu
      · simp only [redoLoop, hr, Bool.false_eq_true, if_false] at h
        cases igU with
        | true =>
          simp only [Bool.not_true, Bool.false_eq_true, if_false] at h
          by_cases hk : downCheck c rb = true
          · rw [if_pos hk] at h
            cases h
            exact ⟨[], [], by simp, by simp, by simp, by simp⟩
          · rw [if_neg hk] at h
            obtain ⟨dq, uq, rfl, rfl, hd, hu⟩ := ih _ _ _ _ hwft h
            exact ⟨dq, uq, rfl, rfl, hd.trans (by simp), hu.trans (by simp)⟩
        | false =>
          simp only [Bool.not_false, if_true] at h
          cases h
    | Pending x =>
      simp only [redoLoop] at h
      by_cases hk : downCheck c rb = true
      · rw [if_pos hk] at h
        cases h
        exact ⟨[], [], by simp, by simp, by simp, by simp⟩
      · rw [if_neg hk] at h
        obtain ⟨dq, uq, rfl, rfl, hd, hu⟩ := ih _ _ _ _ hwft h
        exact ⟨dq, uq, rfl, rfl, hd.trans (by simp), hu.trans (by simp)⟩
/-! ### Ordering of plans -/

theorem chain'_of_all_up (R : Step → Step → Prop)
    (hR : ∀ s t, s.dir = Dir.Up → R s t) :
    ∀ (v : List Step), (∀ s ∈ v, s.dir = Dir.Up) → List.Chain' R v := by
  intro v
  induction v with
  | nil => intro _; simp
  | cons a t ih =>
    intro hv
    cases t with
    | nil => simp
    | cons b t' =>
      rw [List.chain'_cons]
      exact ⟨hR a b (hv a (by simp)), ih (fun s hs => hv s (List.mem_cons_of_mem a hs))⟩

theorem ord_of_split (d u : List Step)
    (hd : ∀ s ∈ d, s.dir = Dir.Down) (hu : ∀ s ∈ u, s.dir = Dir.Up)
    (hdn : (d.map stepName).Pairwise (fun x y => y < x))
    (hun : (u.map stepName).Pairwise (· < ·)) :
    upOrdered (d ++ u) ∧ downRunsOrdered (d ++ u) := by
  constructor
  · unfold upOrdered
    rw [List.filter_append]
    have hfd : d.filter (fun s => decide (s.dir = Dir.Up)) = [] := by
      rw [List.filter_eq_nil_iff]
      intro s hs
      simp only [decide_eq_true_eq]
      rw [hd s hs]
      intro hc
      cases hc
    have hfu : u.filter (fun s => decide (s.dir = Dir.Up)) = u := by
      rw [List.filter_eq_self]
      intro s hs
      simp only [decide_eq_true_eq]
      exact hu s hs
    rw [hfd, hfu, List.nil_append]
    exact hun.chain'
  · unfold downRunsOrdered
    rw [List.chain'_append]
    refine ⟨?_, ?_, ?_⟩
    · have : d.Pairwise (fun s t => stepName t < stepName s) := List.pairwise_map.mp hdn
      exact (this.imp (fun h _ _ => h)).chain'
    · refine chain'_of_all_up _ ?_ u hu
      intro s t hs hsd
      rw [hs] at hsd
      cases hsd
    · intro x hx y hy
      intro _ hyd
      have : y.dir = Dir.Up := hu y (List.mem_of_mem_head? hy)
      rw [this] at hyd
      cases hyd

theorem pendings_names_sublist (ms : List Matching) :
    ((pendings ms).map Migration.name).Sublist (ms.map Matching.mname) := by
  induction ms with
  | nil => simp [pendings]
  | cons m t ih =>
    cases m with
    | Pending x =>
      simp only [pendings, List.filterMap_cons, List.map_cons, Matching.mname]
      exact List.Sublist.cons₂ _ ih
    | Applied a =>
      simp only [pendings, List.filterMap_cons, List.map_cons]
      exact List.Sublist.cons _ ih
    | Variant l a =>
      simp only [pendings, List.filterMap_cons, List.map_cons]
      exact List.Sublist.cons _ ih
    | Divergent a =>
      simp only [pendings, List.filterMap_cons, List.map_cons]
      exact List.Sublist.cons _ ih

theorem applyCount_sublist {α : Type} (c : Option Nat) (l : List α) :
    (applyCount c l).Sublist l := by
  cases c with
  | none => exact List.Sublist.refl l
  | some n => exact List.take_sublist n l

/-- The name-sorted hypothesis on a builder's matches. -/
abbrev SortedMatches (b : PlanBuilder2) : Prop :=
  (b.matches'.map Matching.mname).Pairwise (· < ·)

/-- The name well-formedness hypothesis on a builder's matches. -/
abbrev WfMatches (b : PlanBuilder2) : Prop :=
  ∀ m ∈ b.matches', m.WfNames

theorem upPlanOf_all_up (b : PlanBuilder2) : ∀ s ∈ upPlanOf b, s.dir = Dir.Up := by
  intro s hsm
  unfold upPlanOf at hsm
  obtain ⟨x, -, rfl⟩ := List.mem_map.mp hsm
  rfl

theorem upPlanOf_names_sorted (b : PlanBuilder2) (hs : SortedMatches b) :
    ((upPlanOf b).map stepName).Pairwise (· < ·) := by
  have hnames : ((upPlanOf b).map stepName).Sublist (b.matches'.map Matching.mname) := by
    unfold upPlanOf
    rw [List.map_map]
    have h1 : ((applyCount b.count (pendings b.matches')).map (stepName ∘ fun x => (⟨Dir.Up, x⟩ : Step)))
        = (applyCount b.count (pendings b.matches')).map Migration.name := by
      simp [stepName, Function.comp]
    rw [h1]
    exact ((applyCount_sublist _ _).map Migration.name).trans (pendings_names_sublist _)
  exact List.Pairwise.sublist hnames hs

theorem up_ordered (b : PlanBuilder2) (hs : SortedMatches b) (p : List Step)
    (h : b.up = .ok p) : upOrdered p ∧ downRunsOrdered p := by
  rw [up_ok_plan b p h]
  have := ord_of_split [] (upPlanOf b) (by simp) (upPlanOf_all_up b) (by simp)
    (upPlanOf_names_sorted b hs)
  simpa using this

theorem down_ordered (b : PlanBuilder2) (hs : SortedMatches b) (hwf : WfMatches b)
    (p : List Step) (h : b.down = .ok p) : upOrdered p ∧ downRunsOrdered p := by
  unfold PlanBuilder2.down at h
  obtain ⟨q, hq, hsteps⟩ := downLoop_steps _ _ _ _ _ _ h
  obtain ⟨q', hq', hnames⟩ := downLoop_names _ _ _ _ _ _
    (by intro m hm; exact hwf m (List.mem_reverse.mp hm)) h
  simp only [List.nil_append] at hq hq'
  rw [← hq] at hsteps
  rw [← hq'] at hnames
  have hall : ∀ s ∈ p, s.dir = Dir.Down := fun s hsm => (hsteps s hsm).1
  have hrevnames : ((b.matches'.reverse).map Matching.mname) =
      (b.matches'.map Matching.mname).reverse := by
    rw [List.map_reverse]
  rw [hrevnames] at hnames
  have hpw : (p.map stepName).Pairwise (fun x y => y < x) :=
    List.Pairwise.sublist hnames (List.pairwise_reverse.mpr (by exact hs))
  have := ord_of_split p [] hall (by simp) hpw (by simp)
  simpa using this

theorem fix_ordered (b : PlanBuilder2) (hs : SortedMatches b) (hwf : WfMatches b)
    (p : List Step) (h : b.fix = .ok p) : upOrdered p ∧ downRunsOrdered p := by
  unfold PlanBuilder2.fix at h
  cases hfl : fixLoop b.matches' false [] [] with
  | error e => rw [hfl] at h; cases h
  | ok r =>
    obtain ⟨rbr, ru⟩ := r
    rw [hfl] at h
    cases h
    obtain ⟨dq, uq, hdq, huq, hd, hu⟩ := fixLoop_steps _ _ _ _ _ _ hfl
    obtain ⟨dq', uq', hdq', huq', hdn, hun⟩ := fixLoop_names _ _ _ _ _ _ hwf hfl
    simp only [List.nil_append] at hdq huq hdq' huq'
    rw [← hdq] at hd
    rw [← huq] at hu
    rw [← hdq'] at hdn
    rw [← huq'] at hun
    refine ord_of_split rbr.reverse ru ?_ (fun s hsm => hu s hsm) ?_
      (List.Pairwise.sublist hun hs)
    · intro s hsm
      exact (hd s (List.mem_reverse.mp hsm)).1
    · rw [List.map_reverse]
      exact List.pairwise_reverse.mpr (by simpa using (List.Pairwise.sublist hdn hs))

theorem redo_ordered (b : PlanBuilder2) (hs : SortedMatches b) (hwf : WfMatches b)
    (p : List Step) (h : b.redo = .ok p) : upOrdered p ∧ downRunsOrdered p := by
  unfold PlanBuilder2.redo at h
  cases hrl : redoLoop b.count b.ignore_divergent b.ignore_unreversable b.matches'.reverse [] [] with
  | error e => rw [hrl] at h; cases h
  | ok r =>
    obtain ⟨rb, ru⟩ := r
    rw [hrl] at h
    cases h
    obtain ⟨dq, uq, hdq, huq, hd, hu⟩ := redoLoop_steps _ _ _ _ _ _ _ _ hrl
    obtain ⟨dq', uq', hdq', huq', hdn, hun⟩ := redoLoop_names _ _ _ _ _ _ _ _
      (by intro m hm; exact hwf m (List.mem_reverse.mp hm)) hrl
    simp only [List.nil_append] at hdq huq hdq' huq'
    rw [← hdq] at hd
    rw [← huq] at hu
    rw [← hdq'] at hdn
    rw [← huq'] at hun
    have hrevnames : ((b.matches'.reverse).map Matching.mname) =
        (b.matches'.map Matching.mname).reverse := by
      rw [List.map_reverse]
    rw [hrevnames] at hdn hun
    refine ord_of_split rb ru.reverse (fun s hsm => (hd s hsm).1) ?_ ?_ ?_
    · intro s hsm
      exact hu s (List.mem_reverse.mp hsm)
    · exact List.Pairwise.sublist hdn (List.pairwise_reverse.mpr (by exact hs))
    · rw [List.map_reverse]
      refine List.pairwise_reverse.mpr ?_
      exact List.Pairwise.sublist hun (List.pairwise_reverse.mpr (by exact hs))
/-! ### Helpers for the claim statements -/

theorem sname_lt {a b : String} (h : a.toList < b.toList) : a < b :=
  String.lt_iff_toList_lt.mpr h

theorem build_ok (l d : List Migration) (c : Option Nat) (st dv du : Bool) :
    (PlanBuilder.mk (some l) (some d) c st dv du).build =
      .ok ⟨sortMatches (find_matches l d), c, st, dv, du⟩ := rfl

theorem build_sorted (l d : List Migration)
    (hl : (l.map Migration.name).Pairwise (· < ·))
    (hd : (d.map Migration.name).Pairwise (· < ·)) :
    sortMatches (find_matches l d) = find_matches l d :=
  sortMatches_eq_self _ (find_matches_sorted l d hl hd)

theorem not_dirtySplit_singleton (m : Matching) : ¬ DirtySplit [m] := by
  rintro ⟨l₁, x, l₂, y, l₃, heq, -, -⟩
  have := congrArg List.length heq
  simp [List.length_append] at this
  omega

theorem downAppendsFirst_filterMap_ne_nil (igD : Bool) (rest : List Matching)
    (h : downAppendsFirst igD rest = true) :
    rest.filterMap (qualifyStep igD) ≠ [] := by
  induction rest with
  | nil => simp [downAppendsFirst] at h
  | cons m t ih =>
    cases m with
    | Divergent x =>
      cases igD with
      | true =>
        simp only [downAppendsFirst, if_true] at h
        simpa [List.filterMap_cons, qualifyStep, qualifies] using ih h
      | false =>
        simp [List.filterMap_cons, qualifyStep, qualifies]
    | Applied a =>
      simp only [downAppendsFirst] at h
      simp [List.filterMap_cons, qualifyStep, qualifies, h]
    | Variant l a =>
      simp only [downAppendsFirst] at h
      simp [List.filterMap_cons, qualifyStep, qualifies, h]
    | Pending x =>
      simp [downAppendsFirst] at h

theorem run_trace (p : List Step) : ∀ (t : List DbCall),
    run_migration_plan traceRunUp traceRunDown t p = .ok (t ++ stepCalls p) := by
  induction p with
  | nil => intro t; simp [run_migration_plan, stepCalls]
  | cons st rest ih =>
    intro t
    cases hd : st.dir with
    | Up =>
      simp only [run_migration_plan, hd, traceRunUp]
      rw [ih]
      simp [stepCalls, List.filterMap_cons, hd]
    | Down =>
      by_cases hr : st.migration.is_reversable = true
      · simp only [run_migration_plan, hd, hr, if_true, traceRunDown]
        rw [ih]
        simp [stepCalls, List.filterMap_cons, hd, hr]
      · have hrf : st.migration.is_reversable = false := by
          cases hx : st.migration.is_reversable
          · rfl
          · exact absurd hx hr
        simp only [run_migration_plan, hd, hrf, Bool.false_eq_true, if_false]
        rw [ih]
        simp [stepCalls, List.filterMap_cons, hd, hrf]

/-! ### Concrete evaluations of find_matches -/

theorem fm_single : find_matches [tmig "test"] [] = [.Pending (tmig "test")] := by
  simp [find_matches]

theorem fm_S1 : find_matches [tmig "test_1", tmig "test_2"] [] =
    [.Pending (tmig "test_1"), .Pending (tmig "test_2")] := by
  simp [find_matches]

theorem fm_div_irrev : find_matches [] [⟨"a", none, none, none⟩] =
    [.Divergent ⟨"a", none, none, none⟩] := by
  simp [find_matches]

theorem fm_div_rev : find_matches [] [⟨"a", none, some "d", none⟩] =
    [.Divergent ⟨"a", none, some "d", none⟩] := by
  simp [find_matches]

theorem fm_S4 : find_matches [tmig "test", tmig "test_2"] [tmig "test", tmig "test_3"] =
    [.Applied (tmig "test"), .Pending (tmig "test_2"), .Divergent (tmig "test_3")] := by
  simp only [find_matches, tmig]
  norm_num [hashes_compatible, nameLt]
  all_goals decide

theorem fm_C3w : find_matches [tmig "t0", tmig "t1"] [tmig "t0", tmig "t2"] =
    [.Applied (tmig "t0"), .Pending (tmig "t1"), .Divergent (tmig "t2")] := by
  simp only [find_matches, tmig]
  norm_num [hashes_compatible, nameLt]
  all_goals decide

theorem fm_C7 : find_matches [tmig "test", tmig "test_2"]
    [tmig "test", ⟨"test_2", none, none, some "hash_1"⟩, tmig "test_3"] =
    [.Applied (tmig "test"), .Applied ⟨"test_2", none, none, some "hash_1"⟩,
      .Divergent (tmig "test_3")] := by
  simp only [find_matches, tmig]
  norm_num [hashes_compatible, nameLt]

/-! ### The claims -/

/-- C1, counterexample: with local = [test] and applied = [], every match is
`Pending`, so `safe_to_migrate()` is true (no divergent, no variant), yet the
fix plan is `[Up test]`, not empty. -/
theorem claim_C1_counterexample :
    (PlanBuilder.mk (some [tmig "test"]) (some []) none false false false).build.map
        PlanBuilder2.safe_to_migrate = .ok true ∧
    (PlanBuilder.mk (some [tmig "test"]) (some []) none false false false).build.bind
        PlanBuilder2.fix = .ok [⟨Dir.Up, tmig "test"⟩] ∧
    Except.ok [(⟨Dir.Up, tmig "test"⟩ : Step)] ≠
      (.ok [] : Except Error (List Step)) := by
  refine ⟨?_, ?_, by simp⟩
  · show Except.ok (PlanBuilder2.safe_to_migrate
      ⟨sortMatches (find_matches [tmig "test"] []), none, false, false, false⟩) = Except.ok true
    rw [fm_single]
    rfl
  · show PlanBuilder2.fix
      ⟨sortMatches (find_matches [tmig "test"] []), none, false, false, false⟩ =
      .ok [⟨Dir.Up, tmig "test"⟩]
    rw [fm_single]
    rfl

/-- C1 (amended): if `safe_to_migrate()` holds and additionally no match is
`Pending` (every match is `Applied`), the fix plan is empty. -/
theorem claim_C1_theorem (b : PlanBuilder2) (hsafe : b.safe_to_migrate = true)
    (hnp : ∀ m ∈ b.matches', m.isPendingB = false) : b.fix = .ok [] := by
  have h1 : b.matches'.any Matching.isDivergentB = false ∧
      b.matches'.any Matching.isVariantB = false := by
    have := hsafe
    unfold PlanBuilder2.safe_to_migrate PlanBuilder2.any_divergent PlanBuilder2.any_variant at this
    constructor
    · cases hx : b.matches'.any Matching.isDivergentB
      · rfl
      · rw [hx] at this; simp at this
    · cases hx : b.matches'.any Matching.isVariantB
      · rfl
      · rw [hx] at this; simp at this
  have hap : ∀ m ∈ b.matches', m.isAppliedB = true := by
    intro m hm
    cases m with
    | Applied a => rfl
    | Divergent a =>
      have := List.any_eq_false.mp h1.1 _ hm
      simp [Matching.isDivergentB] at this
    | Variant l a =>
      have := List.any_eq_false.mp h1.2 _ hm
      simp [Matching.isVariantB] at this
    | Pending l =>
      have := hnp _ hm
      simp [Matching.isPendingB] at this
  unfold PlanBuilder2.fix
  rw [fixLoop_applied b.matches' [] [] hap]
  rfl

/-- C1 witness: a builder whose single match is `Applied` is safe to migrate
and its fix plan is empty. -/
theorem claim_C1_witness :
    PlanBuilder2.safe_to_migrate ⟨[.Applied (tmig "a")], none, false, false, false⟩ = true ∧
    PlanBuilder2.fix ⟨[.Applied (tmig "a")], none, false, false, false⟩ = .ok [] := by
  refine ⟨rfl, claim_C1_theorem _ rfl ?_⟩
  intro m hm
  simp only [List.mem_singleton] at hm
  subst hm
  rfl

/-- C2, counterexample: `down` on a single divergent applied migration with no
down SQL returns the plan `[Down a]` even though `a` has no down SQL. -/
theorem claim_C2_counterexample :
    (PlanBuilder.mk (some []) (some [⟨"a", none, none, none⟩]) none false false false).build.bind
        PlanBuilder2.down = .ok [⟨Dir.Down, ⟨"a", none, none, none⟩⟩] ∧
    (⟨"a", none, none, none⟩ : Migration).down_sql = none := by
  refine ⟨?_, rfl⟩
  show PlanBuilder2.down
    ⟨sortMatches (find_matches [] [⟨"a", none, none, none⟩]), none, false, false, false⟩ =
    .ok [⟨Dir.Down, ⟨"a", none, none, none⟩⟩]
  rw [fm_div_irrev]
  rfl

/-- C2 (amended): plans from `up` contain no `Down` step at all; every `Down`
step in a plan from `fix` or `redo` has its down SQL present; in a plan from
`down`, a `Down` step either has its down SQL present or stems from a
`Divergent` match (whose down step is pushed without a reversibility
check). -/
theorem claim_C2_theorem :
    (∀ (b : PlanBuilder2) (p : List Step), b.up = .ok p → ∀ s ∈ p, s.dir = Dir.Up) ∧
    (∀ (b : PlanBuilder2) (p : List Step), b.fix = .ok p → ∀ s ∈ p, s.dir = Dir.Down →
      s.migration.down_sql.isSome = true) ∧
    (∀ (b : PlanBuilder2) (p : List Step), b.redo = .ok p → ∀ s ∈ p, s.dir = Dir.Down →
      s.migration.down_sql.isSome = true) ∧
    (∀ (b : PlanBuilder2) (p : List Step), b.down = .ok p → ∀ s ∈ p, s.dir = Dir.Down →
      (s.migration.down_sql.isSome = true ∨ Matching.Divergent s.migration ∈ b.matches')) := by
  refine ⟨?_, ?_, ?_, ?_⟩
  · intro b p h s hs
    rw [up_ok_plan b p h] at hs
    exact upPlanOf_all_up b s hs
  · intro b p h s hs hsd
    unfold PlanBuilder2.fix at h
    cases hfl : fixLoop b.matches' false [] [] with
    | error e => rw [hfl] at h; cases h
    | ok r =>
      obtain ⟨rbr, ru⟩ := r
      rw [hfl] at h
      cases h
      obtain ⟨dq, uq, hdq, huq, hd, hu⟩ := fixLoop_steps _ _ _ _ _ _ hfl
      simp only [List.nil_append] at hdq huq
      rw [← hdq] at hd
      rw [← huq] at hu
      rcases List.mem_append.mp hs with hs' | hs'
      · exact (hd s (List.mem_reverse.mp hs')).2
      · have := hu s hs'
        rw [this] at hsd
        cases hsd
  · intro b p h s hs hsd
    unfold PlanBuilder2.redo at h
    cases hrl : redoLoop b.count b.ignore_divergent b.ignore_unreversable
        b.matches'.reverse [] [] with
    | error e => rw [hrl] at h; cases h
    | ok r =>
      obtain ⟨rb, ru⟩ := r
      rw [hrl] at h
      cases h
      obtain ⟨dq, uq, hdq, huq, hd, hu⟩ := redoLoop_steps _ _ _ _ _ _ _ _ hrl
      simp only [List.nil_append] at hdq huq
      rw [← hdq] at hd
      rw [← huq] at hu
      rcases List.mem_append.mp hs with hs' | hs'
      · exact (hd s hs').2
      · have := hu s (List.mem_reverse.mp hs')
        rw [this] at hsd
        cases hsd
  · intro b p h s hs hsd
    unfold PlanBuilder2.down at h
    obtain ⟨q, hq, hsteps⟩ := downLoop_steps _ _ _ _ _ _ h
    simp only [List.nil_append] at hq
    rw [← hq] at hsteps
    rcases (hsteps s hs).2 with hds | hdm
    · exact Or.inl hds
    · exact Or.inr (List.mem_reverse.mp hdm)

/-- C2 witness: instances of the four parts at concrete builders. -/
theorem claim_C2_witness :
    (⟨Dir.Up, tmig "a"⟩ : Step).dir = Dir.Up ∧
    (tmig "d").down_sql.isSome = true ∧
    (tmig "r").down_sql.isSome = true ∧
    ((⟨"x", none, none, none⟩ : Migration).down_sql.isSome = true ∨
      Matching.Divergent ⟨"x", none, none, none⟩ ∈
        ([.Divergent ⟨"x", none, none, none⟩] : List Matching)) := by
  refine ⟨?_, ?_, ?_, ?_⟩
  · exact claim_C2_theorem.1 ⟨[.Pending (tmig "a")], none, false, false, false⟩
      [⟨Dir.Up, tmig "a"⟩] rfl ⟨Dir.Up, tmig "a"⟩ (by simp)
  · exact claim_C2_theorem.2.1 ⟨[.Divergent (tmig "d")], none, false, false, false⟩
      [⟨Dir.Down, tmig "d"⟩] rfl ⟨Dir.Down, tmig "d"⟩ (by simp) rfl
  · exact claim_C2_theorem.2.2.1 ⟨[.Applied (tmig "r")], none, false, false, false⟩
      [⟨Dir.Down, tmig "r"⟩, ⟨Dir.Up, tmig "r"⟩] rfl ⟨Dir.Down, tmig "r"⟩ (by simp) rfl
  · exact claim_C2_theorem.2.2.2 ⟨[.Divergent ⟨"x", none, none, none⟩], none, false, false, false⟩
      [⟨Dir.Down, ⟨"x", none, none, none⟩⟩] rfl ⟨Dir.Down, ⟨"x", none, none, none⟩⟩ (by simp) rfl

/-- C3: on name-sorted inputs, every plan the four commands return has its
`Up` steps in strictly ascending name order and every contiguous run of
`Down` steps in strictly descending name order. -/
theorem claim_C3_theorem (l d : List Migration) (c : Option Nat) (st dv du : Bool)
    (b : PlanBuilder2)
    (hl : (l.map Migration.name).Pairwise (· < ·))
    (hd : (d.map Migration.name).Pairwise (· < ·))
    (hb : (PlanBuilder.mk (some l) (some d) c st dv du).build = .ok b) :
    (∀ p : List Step, b.up = .ok p → upOrdered p ∧ downRunsOrdered p) ∧
    (∀ p : List Step, b.down = .ok p → upOrdered p ∧ downRunsOrdered p) ∧
    (∀ p : List Step, b.fix = .ok p → upOrdered p ∧ downRunsOrdered p) ∧
    (∀ p : List Step, b.redo = .ok p → upOrdered p ∧ downRunsOrdered p) := by
  rw [build_ok] at hb
  simp only [Except.ok.injEq] at hb
  subst hb
  have hs : SortedMatches (⟨sortMatches (find_matches l d), c, st, dv, du⟩ : PlanBuilder2) := by
    show (List.map Matching.mname (sortMatches (find_matches l d))).Pairwise (· < ·)
    rw [build_sorted l d hl hd]
    exact find_matches_sorted l d hl hd
  have hwf : WfMatches (⟨sortMatches (find_matches l d), c, st, dv, du⟩ : PlanBuilder2) := by
    show ∀ m ∈ sortMatches (find_matches l d), m.WfNames
    rw [build_sorted l d hl hd]
    exact find_matches_wf l d
  exact ⟨fun p hp => up_ordered _ hs p hp,
    fun p hp => down_ordered _ hs hwf p hp,
    fun p hp => fix_ordered _ hs hwf p hp,
    fun p hp => redo_ordered _ hs hwf p hp⟩

/-- C3 witness: the fix plan for local = [t0, t1], applied = [t0, t2] is
`[Down t2, Up t1]`, and it is ordered as claimed. -/
theorem claim_C3_witness :
    upOrdered [⟨Dir.Down, tmig "t2"⟩, ⟨Dir.Up, tmig "t1"⟩] ∧
    downRunsOrdered [⟨Dir.Down, tmig "t2"⟩, ⟨Dir.Up, tmig "t1"⟩] := by
  refine (claim_C3_theorem [tmig "t0", tmig "t1"] [tmig "t0", tmig "t2"] none false false false
    ⟨sortMatches (find_matches [tmig "t0", tmig "t1"] [tmig "t0", tmig "t2"]),
      none, false, false, false⟩
    ?_ ?_ rfl).2.2.1 [⟨Dir.Down, tmig "t2"⟩, ⟨Dir.Up, tmig "t1"⟩] ?_
  · simp only [tmig, List.map_cons, List.map_nil, List.pairwise_cons]
    exact ⟨by intro b hb; simp at hb; subst hb; exact sname_lt (by decide), by simp⟩
  · simp only [tmig, List.map_cons, List.map_nil, List.pairwise_cons]
    exact ⟨by intro b hb; simp at hb; subst hb; exact sname_lt (by decide), by simp⟩
  · show PlanBuilder2.fix
      ⟨sortMatches (find_matches [tmig "t0", tmig "t1"] [tmig "t0", tmig "t2"]),
        none, false, false, false⟩ = .ok [⟨Dir.Down, tmig "t2"⟩, ⟨Dir.Up, tmig "t1"⟩]
    rw [fm_C3w]
    rfl

/-- C4: `up` returns exactly one `Up` step per pending match in match order,
truncated to the first `count` pending matches; on sorted inputs the plan is
in ascending name order; with local = [test_1, test_2] and applied = [] the
plan is `[Up test_1, Up test_2]`. -/
theorem claim_C4_theorem :
    (∀ (b : PlanBuilder2) (p : List Step), b.up = .ok p → p = upPlanOf b) ∧
    (∀ (l d : List Migration) (c : Option Nat) (st dv du : Bool) (b : PlanBuilder2)
      (p : List Step),
      (l.map Migration.name).Pairwise (· < ·) →
      (d.map Migration.name).Pairwise (· < ·) →
      (PlanBuilder.mk (some l) (some d) c st dv du).build = .ok b →
      b.up = .ok p → (p.map stepName).Pairwise (· < ·)) ∧
    ((PlanBuilder.mk (some [tmig "test_1", tmig "test_2"]) (some []) none false false
        false).build.bind PlanBuilder2.up =
      .ok [⟨Dir.Up, tmig "test_1"⟩, ⟨Dir.Up, tmig "test_2"⟩]) := by
  refine ⟨fun b p h => up_ok_plan b p h, ?_, ?_⟩
  · intro l d c st dv du b p hl hd hb hup
    rw [build_ok] at hb
    simp only [Except.ok.injEq] at hb
    subst hb
    have hs : SortedMatches (⟨sortMatches (find_matches l d), c, st, dv, du⟩ : PlanBuilder2) := by
      show (List.map Matching.mname (sortMatches (find_matches l d))).Pairwise (· < ·)
      rw [build_sorted l d hl hd]
      exact find_matches_sorted l d hl hd
    rw [up_ok_plan _ p hup]
    exact upPlanOf_names_sorted _ hs
  · show PlanBuilder2.up
      ⟨sortMatches (find_matches [tmig "test_1", tmig "test_2"] []), none, false, false, false⟩ =
      .ok [⟨Dir.Up, tmig "test_1"⟩, ⟨Dir.Up, tmig "test_2"⟩]
    rw [fm_S1]
    rfl

/-- C4 witness: the first part at a single pending match, and the second at
the scenario of the claim. -/
theorem claim_C4_witness :
    ([⟨Dir.Up, tmig "x"⟩] : List Step) =
      upPlanOf ⟨[.Pending (tmig "x")], none, false, false, false⟩ ∧
    (([⟨Dir.Up, tmig "test_1"⟩, ⟨Dir.Up, tmig "test_2"⟩] : List Step).map stepName).Pairwise
      (· < ·) := by
  constructor
  · exact claim_C4_theorem.1 ⟨[.Pending (tmig "x")], none, false, false, false⟩
      [⟨Dir.Up, tmig "x"⟩] rfl
  · refine claim_C4_theorem.2.1 [tmig "test_1", tmig "test_2"] [] none false false false
      ⟨sortMatches (find_matches [tmig "test_1", tmig "test_2"] []), none, false, false, false⟩
      [⟨Dir.Up, tmig "test_1"⟩, ⟨Dir.Up, tmig "test_2"⟩] ?_ (by simp) rfl ?_
    · simp only [tmig, List.map_cons, List.map_nil, List.pairwise_cons]
      exact ⟨by intro b hb; simp at hb; subst hb; exact sname_lt (by decide), by simp⟩
    · show PlanBuilder2.up
        ⟨sortMatches (find_matches [tmig "test_1", tmig "test_2"] []), none, false, false, false⟩ =
        .ok [⟨Dir.Up, tmig "test_1"⟩, ⟨Dir.Up, tmig "test_2"⟩]
      rw [fm_S1]
      rfl

/-- C5: `down` walks the matches in reverse order; with no count it stops
after the first appended step (the plan has at most one step); ignored
divergent matches are skipped as if absent (they do not count toward the
stop); and on local = [test, test_2], applied = [test, test_3] with
`ignore_divergent` the plan is the single step `Down` on the applied record
of `test`. -/
theorem claim_C5_theorem :
    (∀ (b : PlanBuilder2) (p : List Step), b.count = none → b.down = .ok p →
      p.length ≤ 1) ∧
    (∀ (b : PlanBuilder2), b.ignore_divergent = true →
      b.down = PlanBuilder2.down ⟨b.matches'.filter notDivergent, b.count, b.strict,
        b.ignore_divergent, b.ignore_unreversable⟩) ∧
    ((PlanBuilder.mk (some [tmig "test", tmig "test_2"]) (some [tmig "test", tmig "test_3"])
        none false true false).build.bind PlanBuilder2.down =
      .ok [⟨Dir.Down, tmig "test"⟩]) := by
  refine ⟨?_, ?_, ?_⟩
  · intro b p hc h
    unfold PlanBuilder2.down at h
    rw [hc] at h
    exact downLoop_none_len _ _ _ _ h
  · intro b hig
    show downLoop b.count b.ignore_divergent b.ignore_unreversable b.matches'.reverse [] =
      downLoop b.count b.ignore_divergent b.ignore_unreversable
        (b.matches'.filter notDivergent).reverse []
    rw [hig]
    rw [downLoop_filter b.count b.ignore_unreversable b.matches'.reverse []]
    rw [List.filter_reverse]
  · show PlanBuilder2.down
      ⟨sortMatches (find_matches [tmig "test", tmig "test_2"] [tmig "test", tmig "test_3"]),
        none, false, true, false⟩ = .ok [⟨Dir.Down, tmig "test"⟩]
    rw [fm_S4]
    rfl

/-- C5 witness: the length bound on a one-applied-match builder and the
filter equivalence on a builder with an ignored divergent. -/
theorem claim_C5_witness :
    ([⟨Dir.Down, tmig "a"⟩] : List Step).length ≤ 1 ∧
    PlanBuilder2.down ⟨[.Divergent (tmig "z"), .Applied (tmig "a")], none, false, true, false⟩ =
      PlanBuilder2.down ⟨([.Divergent (tmig "z"), .Applied (tmig "a")] :
        List Matching).filter notDivergent, none, false, true, false⟩ := by
  constructor
  · exact claim_C5_theorem.1 ⟨[.Applied (tmig "a")], none, false, false, false⟩
      [⟨Dir.Down, tmig "a"⟩] rfl rfl
  · exact claim_C5_theorem.2.1 ⟨[.Divergent (tmig "z"), .Applied (tmig "a")], none, false,
      true, false⟩ rfl
/-- C6: with strict mode on, `up` fails with `DirtyMigrations` exactly when a
non-pending match occurs after a pending one; otherwise it returns the same
plan as the non-strict configuration; with local = [test, test_2] and
applied = [test, test_3], strict `up` fails with `DirtyMigrations`. -/
theorem claim_C6_theorem (b : PlanBuilder2) (hst : b.strict = true) :
    (b.up = .error .DirtyMigrations ↔ DirtySplit b.matches') ∧
    (¬ DirtySplit b.matches' → b.up = .ok (upPlanOf b) ∧
      PlanBuilder2.up ⟨b.matches', b.count, false, b.ignore_divergent,
        b.ignore_unreversable⟩ = .ok (upPlanOf b)) ∧
    ((PlanBuilder.mk (some [tmig "test", tmig "test_2"]) (some [tmig "test", tmig "test_3"])
        none true false false).build.bind PlanBuilder2.up = .error .DirtyMigrations) := by
  refine ⟨up_error_iff b hst, ?_, ?_⟩
  · intro hnd
    constructor
    · rcases up_ok_cases b with h | ⟨-, herr⟩
      · exact h
      · exact absurd ((up_error_iff b hst).mp herr) hnd
    · rcases up_ok_cases ⟨b.matches', b.count, false, b.ignore_divergent,
        b.ignore_unreversable⟩ with h | ⟨hs', -⟩
      · exact h
      · cases hs'
  · show PlanBuilder2.up
      ⟨sortMatches (find_matches [tmig "test", tmig "test_2"] [tmig "test", tmig "test_3"]),
        none, true, false, false⟩ = .error .DirtyMigrations
    rw [fm_S4]
    rfl

/-- C6 witness: a pending match followed by an applied one makes strict `up`
fail, and without such a pattern strict `up` succeeds with the normal plan. -/
theorem claim_C6_witness :
    PlanBuilder2.up ⟨[.Pending (tmig "b"), .Applied (tmig "c")], none, true, false, false⟩ =
      .error .DirtyMigrations ∧
    PlanBuilder2.up ⟨[.Applied (tmig "c")], none, true, false, false⟩ =
      .ok (upPlanOf ⟨[.Applied (tmig "c")], none, true, false, false⟩) := by
  constructor
  · exact (claim_C6_theorem ⟨[.Pending (tmig "b"), .Applied (tmig "c")], none, true, false,
      false⟩ rfl).1.mpr
      ⟨[], .Pending (tmig "b"), [], .Applied (tmig "c"), [], rfl, rfl, rfl⟩
  · exact ((claim_C6_theorem ⟨[.Applied (tmig "c")], none, true, false, false⟩ rfl).2.1
      (not_dirtySplit_singleton _)).1

/-- C7: with `ignore_divergent`, `redo` behaves as if the divergent matches
were absent (they are skipped and never counted toward the stop); without it,
the walk fails with `DivergentMigration` the moment it reaches a divergent
match, whatever has been accumulated; concretely, local = [test, test_2]
against applied = [test, test_2 (hash), test_3] with count = 2 fails with
`DivergentMigration`. -/
theorem claim_C7_theorem :
    (∀ (b : PlanBuilder2), b.ignore_divergent = true →
      b.redo = PlanBuilder2.redo ⟨b.matches'.filter notDivergent, b.count, b.strict,
        b.ignore_divergent, b.ignore_unreversable⟩) ∧
    (∀ (c : Option Nat) (igU : Bool) (dm : Migration) (rest : List Matching)
      (rb ru : List Step),
      redoLoop c false igU (.Divergent dm :: rest) rb ru = .error .DivergentMigration) ∧
    ((PlanBuilder.mk (some [tmig "test", tmig "test_2"])
        (some [tmig "test", ⟨"test_2", none, none, some "hash_1"⟩, tmig "test_3"])
        (some 2) false false false).build.bind PlanBuilder2.redo =
      .error .DivergentMigration) := by
  refine ⟨?_, ?_, ?_⟩
  · intro b hig
    show (match redoLoop b.count b.ignore_divergent b.ignore_unreversable
        b.matches'.reverse [] [] with
      | Except.error e => Except.error e
      | Except.ok (rb, ru) => Except.ok (rb ++ ru.reverse)) =
      (match redoLoop b.count b.ignore_divergent b.ignore_unreversable
        (b.matches'.filter notDivergent).reverse [] [] with
      | Except.error e => Except.error e
      | Except.ok (rb, ru) => Except.ok (rb ++ ru.reverse))
    rw [hig]
    rw [redoLoop_filter b.count b.ignore_unreversable b.matches'.reverse [] []]
    rw [List.filter_reverse]
  · exact fun c igU dm rest rb ru => redoLoop_divergent c igU dm rest rb ru
  · show PlanBuilder2.redo
      ⟨sortMatches (find_matches [tmig "test", tmig "test_2"]
        [tmig "test", ⟨"test_2", none, none, some "hash_1"⟩, tmig "test_3"]),
        some 2, false, false, false⟩ = .error .DivergentMigration
    rw [fm_C7]
    rfl

/-- C7 witness: the filter equivalence at a builder with an ignored
divergent, and the immediate failure of the loop at a divergent match. -/
theorem claim_C7_witness :
    PlanBuilder2.redo ⟨[.Divergent (tmig "z"), .Applied (tmig "a")], none, false, true, false⟩ =
      PlanBuilder2.redo ⟨([.Divergent (tmig "z"), .Applied (tmig "a")] :
        List Matching).filter notDivergent, none, false, true, false⟩ ∧
    redoLoop none false false [.Divergent (tmig "z")] [] [] = .error .DivergentMigration := by
  constructor
  · exact claim_C7_theorem.1 ⟨[.Divergent (tmig "z"), .Applied (tmig "a")], none, false,
      true, false⟩ rfl
  · exact claim_C7_theorem.2.1 none false (tmig "z") [] [] []

/-- C8: the default plan executor processes steps in plan order; against the
recording adaptor the calls are exactly one up call per `Up` step and one
down call per reversible `Down` step; a `Down` step on an irreversible
migration makes no adaptor call and continues with the rest of the plan; an
`Up` step invokes `run_up_migration`. -/
theorem claim_C8_theorem :
    (∀ (p : List Step), run_migration_plan traceRunUp traceRunDown [] p =
      .ok (stepCalls p)) ∧
    (∀ (σ : Type) (ru rd : σ → Migration → Except Error σ) (s : σ) (m : Migration)
      (rest : List Step), m.is_reversable = false →
      run_migration_plan ru rd s (⟨Dir.Down, m⟩ :: rest) =
        run_migration_plan ru rd s rest) ∧
    (∀ (σ : Type) (ru rd : σ → Migration → Except Error σ) (s : σ) (m : Migration)
      (rest : List Step),
      run_migration_plan ru rd s (⟨Dir.Up, m⟩ :: rest) =
        (ru s m).bind fun s' => run_migration_plan ru rd s' rest) := by
  refine ⟨?_, ?_, ?_⟩
  · intro p
    simpa using run_trace p []
  · intro σ ru rd s m rest hm
    simp [run_migration_plan, hm]
  · intro σ ru rd s m rest
    show (match ru s m with
      | .ok s' => run_migration_plan ru rd s' rest
      | .error e => .error e) = _
    cases ru s m <;> rfl

/-- C8 witness: the executor on a plan with an up step, a reversible down
step and an irreversible down step makes exactly the first two calls, and
the irreversible down step alone is a no-op. -/
theorem claim_C8_witness :
    run_migration_plan traceRunUp traceRunDown []
        [⟨Dir.Up, tmig "u"⟩, ⟨Dir.Down, tmig "d"⟩, ⟨Dir.Down, ⟨"i", none, none, none⟩⟩] =
      .ok (stepCalls [⟨Dir.Up, tmig "u"⟩, ⟨Dir.Down, tmig "d"⟩,
        ⟨Dir.Down, ⟨"i", none, none, none⟩⟩]) ∧
    run_migration_plan traceRunUp traceRunDown []
        [⟨Dir.Down, ⟨"i", none, none, none⟩⟩] =
      run_migration_plan traceRunUp traceRunDown [] [] := by
  constructor
  · exact claim_C8_theorem.1
      [⟨Dir.Up, tmig "u"⟩, ⟨Dir.Down, tmig "d"⟩, ⟨Dir.Down, ⟨"i", none, none, none⟩⟩]
  · exact claim_C8_theorem.2.1 (List DbCall) traceRunUp traceRunDown []
      ⟨"i", none, none, none⟩ [] rfl

/-- C9, counterexample: with count = 0 and an ignored divergent as the only
match, `down` returns the empty plan although the stop check never fires
(the `continue` skips it and the loop simply ends). -/
theorem claim_C9_counterexample :
    (PlanBuilder.mk (some []) (some [⟨"a", none, some "d", none⟩]) (some 0) false true
        false).build.bind PlanBuilder2.down = .ok [] ∧
    (PlanBuilder.mk (some []) (some [⟨"a", none, some "d", none⟩]) (some 0) false true
        false).build.map PlanBuilder2.down_broke = .ok false := by
  constructor
  · show PlanBuilder2.down
      ⟨sortMatches (find_matches [] [⟨"a", none, some "d", none⟩]), some 0, false, true,
        false⟩ = .ok []
    rw [fm_div_rev]
    rfl
  · show Except.ok (PlanBuilder2.down_broke
      ⟨sortMatches (find_matches [] [⟨"a", none, some "d", none⟩]), some 0, false, true,
        false⟩) = .ok false
    rw [fm_div_rev]
    rfl

/-- C9 (amended): with count = 0, the stop check runs only after a match is
processed, so `down` is not limited to zero steps: if it returns a non-empty
plan, that plan holds a `Down` step for every qualifying match of the whole
reverse walk; and the plan is empty exactly when the first processed match
(skipping ignored divergents) appends nothing. -/
theorem claim_C9_theorem (b : PlanBuilder2) (h0 : b.count = some 0) (p : List Step)
    (h : b.down = .ok p) :
    (p = [] ↔ downAppendsFirst b.ignore_divergent b.matches'.reverse = false) ∧
    (p ≠ [] → p = (b.matches'.reverse).filterMap (qualifyStep b.ignore_divergent)) := by
  unfold PlanBuilder2.down at h
  rw [h0] at h
  rcases downLoop_count0_start b.ignore_divergent b.ignore_unreversable _ p h with
    ⟨h1, h2⟩ | ⟨h1, h2⟩
  · subst h2
    refine ⟨⟨fun hnil => absurd hnil (downAppendsFirst_filterMap_ne_nil _ _ h1), ?_⟩,
      fun _ => rfl⟩
    intro hfalse
    rw [h1] at hfalse
    cases hfalse
  · subst h2
    exact ⟨by simp [h1], fun hne => absurd rfl hne⟩

/-- C9 witness: with count = 0 and two reversible applied matches, `down`
returns a `Down` step for both (the plan is not limited to zero steps). -/
theorem claim_C9_witness :
    ([⟨Dir.Down, tmig "b"⟩, ⟨Dir.Down, tmig "a"⟩] : List Step) =
      (([.Applied (tmig "a"), .Applied (tmig "b")] : List Matching).reverse).filterMap
        (qualifyStep false) := by
  exact (claim_C9_theorem ⟨[.Applied (tmig "a"), .Applied (tmig "b")], some 0, false, false,
    false⟩ rfl [⟨Dir.Down, tmig "b"⟩, ⟨Dir.Down, tmig "a"⟩] rfl).2 (by simp)

/-- C10: the result of `up` (the returned plan or the `DirtyMigrations`
error) is the same for any two configurations agreeing on the migration
lists, the count and the strict flag, whatever `ignore_divergent` and
`ignore_unreversable` are: `up` never reads those two flags. -/
theorem claim_C10_theorem (l d : List Migration) (c : Option Nat) (st : Bool)
    (dv₁ du₁ dv₂ du₂ : Bool) :
    (PlanBuilder.mk (some l) (some d) c st dv₁ du₁).build.bind PlanBuilder2.up =
    (PlanBuilder.mk (some l) (some d) c st dv₂ du₂).build.bind PlanBuilder2.up := rfl

end Movine
